import Mathlib

set_option linter.unusedSectionVars false

/-!
# Shallow embedding of the kimchi circuit-construction frontend

This file embeds the dual-mode circuit builder of
`src/circuit-construction/src/lib.rs` into Lean:

* the data model (`Var`, `GateSpec`, `Wire`, `CircuitGate`);
* the two backends implementing the builder trait `Cs`:
  the circuit backend `System` and the witness backend `WitnessGenerator`,
  packaged as an explicit record of operations `CsOps` with explicit
  state passing replacing Rust's `&mut self`;
* the gadget library members needed by the verified claims
  (`constant`, `add`, `sub`, `and`, `equals`, `equals_old`, `scale`,
  `add_group`, `double`, `scalar`, `endo`, `assert_pack`);
* the compiler `System::gates` that turns the gate-spec list into
  circuit gates carrying copy-constraint wires.

Rust `usize` becomes `Nat`; the field `F` stays generic
(`Field F`, `DecidableEq F`); `Option` models Rust `Option`;
`assert!`-style fail-fast preconditions become `Option`-returning
functions (`none` on precondition failure).  `Var::val` unwraps the
witness value; the panic on a missing value is modelled by the junk
default `0` (in witness mode every value is present).  Arkworks'
`inverse().unwrap_or(zero)` coincides with Lean's field inverse, which
sends `0` to `0`.
-/

namespace Kimchi

/-- Kimchi row width: number of columns of a gate row (`COLUMNS = 15`). -/
def COLUMNS : Nat := 15

/-- Number of permutable columns (`PERMUTS = 7`): a compiled gate's
`wires` array has type `GateWires = [Wire; PERMUTS]`, so the wiring
compiler records copy constraints only for the first 7 columns of each
row (the constraint layer reads exactly `wires[0..PERMUTS]`). -/
def PERMUTS : Nat := 7

/-- Number of cells usable by one generic sub-gate (`GENERICS`). -/
def GENERICS : Nat := 3

/-- Coefficients of a single generic sub-gate (`SINGLE_GENERIC_COEFFS`). -/
def SINGLE_GENERIC_COEFFS : Nat := 5

/-- Coefficients of a double generic row (`GENERIC_ROW_COEFFS = 10`). -/
def GENERIC_ROW_COEFFS : Nat := 2 * SINGLE_GENERIC_COEFFS

/-- Gate discriminants used by the frontend (subset of kimchi's `GateType`). -/
inductive GateType where
  | Generic
  | CompleteAdd
  | VarBaseMul
  | EndoMul
  | Poseidon
  | Zero
deriving DecidableEq

/-- Rust `Var<F>`: a cell handle with a circuit-wide index and an optional
witness value. -/
structure Var (F : Type) where
  index : Nat
  value : Option F
deriving DecidableEq

/-- Rust `Var::val`: `self.value.unwrap()`.  The panic on `None` is modelled
by the junk default `0`; in witness mode the value is always present. -/
def Var.val {F : Type} [Zero F] (v : Var F) : F :=
  v.value.getD 0

/-- Rust `ShiftedScalar<F>`: wrapper around a variable holding the
`2y + shift` encoding of a scalar. -/
structure ShiftedScalar (F : Type) where
  s : Var F

/-- Rust `GateSpec<F>`: gate type, row of `COLUMNS` cell handles, and the
gate coefficient vector. -/
structure GateSpec (F : Type) where
  typ : GateType
  row : List (Var F)
  coeffs : List F
deriving DecidableEq

/-- Constants bundle (`Constants<F>`); the Poseidon parameter table is
omitted because no embedded gadget reads it. -/
structure Constants (F : Type) where
  endo : F
  base : F × F

/-- Circuit backend state (`System<F>`): fresh-variable counter and the
collected gate specs. -/
structure System (F : Type) where
  next_variable : Nat
  gates : List (GateSpec F)
deriving DecidableEq

/-- Witness backend state (`WitnessGenerator<F>`): the accumulated witness
rows. -/
structure WitnessGenerator (F : Type) where
  rows : List (List F)
deriving DecidableEq

/-- The builder trait `Cs<F>` as a record of its three primitive
operations, with the `&mut self` state passed explicitly. -/
structure CsOps (σ F : Type) where
  var : σ → (Unit → F) → Var F × σ
  gate : σ → GateSpec F → σ
  curr_gate_count : σ → Nat

section Backends

variable {F : Type} [Field F] [DecidableEq F]

/-- `<System as Cs>::var`: returns the next fresh index with no value and
bumps the counter; the thunk argument is ignored (`fn var<G>(&mut self, _: G)`). -/
def System.varOp (s : System F) (_g : Unit → F) : Var F × System F :=
  (⟨s.next_variable, none⟩, { s with next_variable := s.next_variable + 1 })

/-- `<System as Cs>::gate`: push the spec onto the gate list. -/
def System.gateOp (s : System F) (g : GateSpec F) : System F :=
  { s with gates := s.gates ++ [g] }

/-- `<System as Cs>::curr_gate_count`. -/
def System.countOp (s : System F) : Nat :=
  s.gates.length

/-- The circuit backend as a `CsOps` record. -/
def systemOps : CsOps (System F) F :=
  ⟨System.varOp, System.gateOp, System.countOp⟩

/-- `<WitnessGenerator as Cs>::var`: index `0`, value obtained by invoking
the thunk; the state is untouched. -/
def WitnessGenerator.varOp (w : WitnessGenerator F) (g : Unit → F) :
    Var F × WitnessGenerator F :=
  (⟨0, some (g ())⟩, w)

/-- `<WitnessGenerator as Cs>::gate`: push the row of unwrapped cell
values. -/
def WitnessGenerator.gateOp (w : WitnessGenerator F) (g : GateSpec F) :
    WitnessGenerator F :=
  { rows := w.rows ++ [g.row.map Var.val] }

/-- `<WitnessGenerator as Cs>::curr_gate_count`. -/
def WitnessGenerator.countOp (w : WitnessGenerator F) : Nat :=
  w.rows.length

/-- The witness backend as a `CsOps` record. -/
def witnessOps : CsOps (WitnessGenerator F) F :=
  ⟨WitnessGenerator.varOp, WitnessGenerator.gateOp, WitnessGenerator.countOp⟩

end Backends

section Gadgets

variable {F : Type} [Field F] [DecidableEq F] {σ : Type}

/-- Sequential `array_init(|i| ...)` over the `COLUMNS` columns of a row:
the cell function is run on indices `0, 1, ..., 14` in order, threading the
builder state. -/
def rowInit (cell : σ → Nat → Var F × σ) (s : σ) : List (Var F) × σ :=
  (List.range COLUMNS).foldl
    (fun acc i =>
      let p := cell acc.2 i
      (acc.1 ++ [p.1], p.2))
    ([], s)

/-- A coefficient vector of `GENERIC_ROW_COEFFS` zeroes
(`vec![F::zero(); GENERIC_ROW_COEFFS]`). -/
def zeroCoeffs : List F :=
  List.replicate GENERIC_ROW_COEFFS 0

/-- `Cs::constant`: allocate `v` with value `x` and pin it with a generic
row `[v, 0, ..., 0]` with `q_l = 1` and `q_c = -x` at index `GENERICS + 1`. -/
def Cs.constant (ops : CsOps σ F) (s : σ) (x : F) : Var F × σ :=
  let p := ops.var s (fun _ => x)
  let v := p.1
  let c := ((zeroCoeffs (F := F)).set 0 1).set (GENERICS + 1) (-x)
  let q := rowInit
    (fun t i => if i = 0 then (v, t) else ops.var t (fun _ => 0)) p.2
  (v, ops.gate q.2 ⟨GateType.Generic, q.1, c⟩)

/-- `Cs::add`: row `[x1, x2, res, fillers]` with coefficients
`q_l = 1, q_r = 1, q_o = -1`. -/
def Cs.add (ops : CsOps σ F) (s : σ) (x1 x2 : Var F) : Var F × σ :=
  let p := ops.var s (fun _ => x1.val + x2.val)
  let res := p.1
  let q := rowInit
    (fun t i =>
      if i = 0 then (x1, t)
      else if i = 1 then (x2, t)
      else if i = 2 then (res, t)
      else ops.var t (fun _ => 0)) p.2
  let c := (((zeroCoeffs (F := F)).set 0 1).set 1 1).set 2 (-1)
  (res, ops.gate q.2 ⟨GateType.Generic, q.1, c⟩)

/-- `Cs::sub`: row `[x1, x2, res, fillers]` with coefficients
`q_l = 1, q_r = -1, q_o = -1`. -/
def Cs.sub (ops : CsOps σ F) (s : σ) (x1 x2 : Var F) : Var F × σ :=
  let p := ops.var s (fun _ => x1.val - x2.val)
  let res := p.1
  let q := rowInit
    (fun t i =>
      if i = 0 then (x1, t)
      else if i = 1 then (x2, t)
      else if i = 2 then (res, t)
      else ops.var t (fun _ => 0)) p.2
  let c := (((zeroCoeffs (F := F)).set 0 1).set 1 (-1)).set 2 (-1)
  (res, ops.gate q.2 ⟨GateType.Generic, q.1, c⟩)

/-- `Cs::and`: result value `x1 * x2`, row `[x1, x2, res, fillers]` with the
coefficients the source emits: `q_l = 1, q_r = 1, q_o = -2` (and `q_m = 0`). -/
def Cs.and (ops : CsOps σ F) (s : σ) (x1 x2 : Var F) : Var F × σ :=
  let p := ops.var s (fun _ => x1.val * x2.val)
  let res := p.1
  let q := rowInit
    (fun t i =>
      if i = 0 then (x1, t)
      else if i = 1 then (x2, t)
      else if i = 2 then (res, t)
      else ops.var t (fun _ => 0)) p.2
  let c := (((zeroCoeffs (F := F)).set 0 1).set 1 1).set 2 (-(2 : F))
  (res, ops.gate q.2 ⟨GateType.Generic, q.1, c⟩)

/-- `Cs::scale`: row of fresh fillers overwritten at columns 0 and 1 by
`v` and `xv`, coefficients `q_l = x, q_r = -1`. -/
def Cs.scale (ops : CsOps σ F) (s : σ) (x : F) (v : Var F) : Var F × σ :=
  let p := ops.var s (fun _ => v.val * x)
  let xv := p.1
  let q := rowInit (fun t _ => ops.var t (fun _ => 0)) p.2
  let row := (q.1.set 0 v).set 1 xv
  let c := ((zeroCoeffs (F := F)).set 0 x).set 1 (-1)
  (xv, ops.gate q.2 ⟨GateType.Generic, row, c⟩)

/-- `Cs::equals_old` (obsolete equality gadget): emits the `sub` row, an
`inv * inv2` row, the `diff` row -- whose 10-coefficient vector is
overridden by the literal 3-element vector `vec![1, -1, 1]` in the source --
and a `res = diff * inv` row. -/
def Cs.equals_old (ops : CsOps σ F) (s : σ) (x1 x2 : Var F) : Var F × σ :=
  let d := Cs.sub ops s x2 x1
  let diff := d.1
  let p1 := ops.var d.2 (fun _ => if diff.val = 0 then 1 else (diff.val)⁻¹)
  let inv := p1.1
  let p2 := ops.var p1.2 (fun _ => if inv.val = 0 then 1 else (inv.val)⁻¹)
  let inv2 := p2.1
  let p3 := ops.var p2.2 (fun _ => if x1.val = x2.val then (1 : F) else 0)
  let res := p3.1
  let r1 := rowInit
    (fun t i =>
      if i = 0 then (inv, t)
      else if i = 1 then (inv2, t)
      else ops.var t (fun _ => 0)) p3.2
  let c1 := ((zeroCoeffs (F := F)).set 1 (-1)).set 2 1
  let s1 := ops.gate r1.2 ⟨GateType.Generic, r1.1, c1⟩
  let r2 := rowInit
    (fun t i =>
      if i = 0 then (x1, t)
      else if i = 1 then (x2, t)
      else if i = 2 then (diff, t)
      else ops.var t (fun _ => 0)) s1
  -- the source builds a 10-element vector here and then passes the literal
  -- `vec![F::one(), -F::one(), F::one()]` instead
  let c2 : List F := [1, -1, 1]
  let s2 := ops.gate r2.2 ⟨GateType.Generic, r2.1, c2⟩
  let r3 := rowInit
    (fun t i =>
      if i = 0 then (diff, t)
      else if i = 1 then (inv, t)
      else if i = 2 then (res, t)
      else ops.var t (fun _ => 0)) s2
  let c3 := ((zeroCoeffs (F := F)).set 2 1).set 3 (-1)
  (res, ops.gate r3.2 ⟨GateType.Generic, r3.1, c3⟩)

/-- `Cs::equals`: `diff = sub(x2, x1)`, `inv = diff.inverse().unwrap_or(0)`,
`res = [x1 == x2]`, `one_minus_res = 1 - res`, then three generic rows; the
first row's column 0 is produced by the embedded call `constant(1)`, which
emits its own generic row during row construction. -/
def Cs.equals (ops : CsOps σ F) (s : σ) (x1 x2 : Var F) : Var F × σ :=
  let d := Cs.sub ops s x2 x1
  let diff := d.1
  let p1 := ops.var d.2 (fun _ => (diff.val)⁻¹)
  let inv := p1.1
  let p2 := ops.var p1.2 (fun _ => if x1.val = x2.val then (1 : F) else 0)
  let res := p2.1
  let p3 := ops.var p2.2 (fun _ => 1 - res.val)
  let omr := p3.1
  let r1 := rowInit
    (fun t i =>
      if i = 0 then Cs.constant ops t 1
      else if i = 1 then (res, t)
      else if i = 2 then (omr, t)
      else ops.var t (fun _ => 0)) p3.2
  let c1 := (((zeroCoeffs (F := F)).set 0 1).set 1 (-1)).set 2 (-1)
  let s1 := ops.gate r1.2 ⟨GateType.Generic, r1.1, c1⟩
  let r2 := rowInit
    (fun t i =>
      if i = 0 then (inv, t)
      else if i = 1 then (diff, t)
      else if i = 2 then (omr, t)
      else ops.var t (fun _ => 0)) s1
  let c2 := ((zeroCoeffs (F := F)).set 2 (-1)).set 3 1
  let s2 := ops.gate r2.2 ⟨GateType.Generic, r2.1, c2⟩
  let r3 := rowInit
    (fun t i =>
      if i = 0 then (res, t)
      else if i = 1 then (diff, t)
      else ops.var t (fun _ => 0)) s2
  let c3 := (zeroCoeffs (F := F)).set 3 1
  (res, ops.gate r3.2 ⟨GateType.Generic, r3.1, c3⟩)

/-- `Cs::add_group` (complete elliptic-curve addition): allocates the
auxiliary witnesses `same_x`, `x21_inv`, `s`, `inf_z`, `x3`, `y3` and emits
one `CompleteAdd` row with empty coefficients.  The Rust captured flag
`same_x_bool` always equals `x1.val == x2.val`, which is used directly. -/
def Cs.add_group (ops : CsOps σ F) (s : σ) (zero : Var F)
    (p1 p2 : Var F × Var F) : (Var F × Var F) × σ :=
  let x1 := p1.1
  let y1 := p1.2
  let x2 := p2.1
  let y2 := p2.2
  let psx := ops.var s (fun _ => if x1.val = x2.val then (1 : F) else 0)
  let same_x := psx.1
  let inf := zero
  let pxi := ops.var psx.2
    (fun _ => if x1.val = x2.val then 0 else (x2.val - x1.val)⁻¹)
  let x21_inv := pxi.1
  let psl := ops.var pxi.2 (fun _ =>
    if x1.val = x2.val then
      (2 * (x1.val * x1.val) + x1.val * x1.val) / (2 * y1.val)
    else (y2.val - y1.val) * x21_inv.val)
  let sl := psl.1
  let piz := ops.var psl.2 (fun _ =>
    if y1.val = y2.val then 0
    else if x1.val = x2.val then (y2.val - y1.val)⁻¹ else 0)
  let inf_z := piz.1
  let px3 := ops.var piz.2 (fun _ => sl.val * sl.val - (x1.val + x2.val))
  let x3 := px3.1
  let py3 := ops.var px3.2 (fun _ => sl.val * (x1.val - x3.val) - y1.val)
  let y3 := py3.1
  let row := [x1, y1, x2, y2, x3, y3, inf, same_x, sl, inf_z, x21_inv,
    zero, zero, zero, zero]
  ((x3, y3), ops.gate py3.2 ⟨GateType.CompleteAdd, row, []⟩)

/-- `Cs::double`: `add_group(zero, p, p)`. -/
def Cs.double (ops : CsOps σ F) (s : σ) (zero : Var F) (p : Var F × Var F) :
    (Var F × Var F) × σ :=
  Cs.add_group ops s zero p p

/-- `Cs::scalar`: asserts `length % 5 == 0` (modelled by returning `none`
on violation) and allocates one variable holding the un-shifted scalar
`(g() - (1 + 2^length)) / 2` computed in the scalar field `Fr` and
re-interpreted in `F`; the bit-level re-interpretation
(`from_repr/to_bits_le`) is the out-of-scope primitive `reprF`. -/
def Cs.scalar {Fr : Type} [Field Fr] (ops : CsOps σ F) (reprF : Fr → F)
    (s : σ) (length : Nat) (g : Unit → Fr) : Option (ShiftedScalar F × σ) :=
  if length % 5 = 0 then
    let p := ops.var s (fun _ => reprF ((g () - (1 + (2 : Fr) ^ length)) / 2))
    some (⟨p.1⟩, p.2)
  else none

/-- One round of the `endo` ladder: consumes the four bits
`b1, b2, b3, b4` at positions `4*i .. 4*i+3`, allocates the intermediate
slopes and points, emits one `EndoMul` row, and returns the new
accumulator, the updated `n_acc` and the threaded state. -/
def endoStep (ops : CsOps σ F) (endoC : F) (zero xt yt : Var F)
    (bits : List (Var F)) (i : Nat) (acc : Var F × Var F) (n_acc : Var F)
    (s : σ) : (Var F × Var F) × Var F × σ :=
  let dflt : Var F := ⟨0, none⟩
  let b1 := bits.getD (i * 4) dflt
  let b2 := bits.getD (i * 4 + 1) dflt
  let b3 := bits.getD (i * 4 + 2) dflt
  let b4 := bits.getD (i * 4 + 3) dflt
  let xp := acc.1
  let yp := acc.2
  let p1 := ops.var s (fun _ => (1 + (endoC - 1) * b1.val) * xt.val)
  let xq1 := p1.1
  let p2 := ops.var p1.2 (fun _ => (2 * b2.val - 1) * yt.val)
  let yq1 := p2.1
  let p3 := ops.var p2.2 (fun _ => (yq1.val - yp.val) / (xq1.val - xp.val))
  let s1 := p3.1
  let p4 := ops.var p3.2 (fun _ => s1.val * s1.val)
  let s1_squared := p4.1
  let p5 := ops.var p4.2 (fun _ =>
    2 * yp.val / (2 * xp.val + xq1.val - s1_squared.val) - s1.val)
  let s2 := p5.1
  let p6 := ops.var p5.2 (fun _ => xq1.val + s2.val * s2.val - s1_squared.val)
  let xr := p6.1
  let p7 := ops.var p6.2 (fun _ => (xp.val - xr.val) * s2.val - yp.val)
  let yr := p7.1
  let p8 := ops.var p7.2 (fun _ => (1 + (endoC - 1) * b3.val) * xt.val)
  let xq2 := p8.1
  let p9 := ops.var p8.2 (fun _ => (2 * b4.val - 1) * yt.val)
  let yq2 := p9.1
  let p10 := ops.var p9.2 (fun _ => (yq2.val - yr.val) / (xq2.val - xr.val))
  let s3 := p10.1
  let p11 := ops.var p10.2 (fun _ => s3.val * s3.val)
  let s3_squared := p11.1
  let p12 := ops.var p11.2 (fun _ =>
    2 * yr.val / (2 * xr.val + xq2.val - s3_squared.val) - s3.val)
  let s4 := p12.1
  let p13 := ops.var p12.2 (fun _ => xq2.val + s4.val * s4.val - s3_squared.val)
  let xs := p13.1
  let p14 := ops.var p13.2 (fun _ => (xr.val - xs.val) * s4.val - yr.val)
  let ys := p14.1
  let row := [xt, yt, zero, zero, xp, yp, n_acc, xr, yr, s1, s3,
    b1, b2, b3, b4]
  let s' := ops.gate p14.2 ⟨GateType.EndoMul, row, []⟩
  let pn := ops.var s' (fun _ =>
    (((n_acc.val * 2 + b1.val) * 2 + b2.val) * 2 + b3.val) * 2 + b4.val)
  ((xs, ys), pn.1, pn.2)

/-- The `for i in 0..rows` loop of `Cs::endo`, recursing on the number of
remaining rows. -/
def endoLoop (ops : CsOps σ F) (endoC : F) (zero xt yt : Var F)
    (bits : List (Var F)) :
    Nat → Nat → ((Var F × Var F) × Var F × σ) → (Var F × Var F) × Var F × σ
  | 0, _, st => st
  | k + 1, i, st =>
    endoLoop ops endoC zero xt yt bits k (i + 1)
      (endoStep ops endoC zero xt yt bits i st.1 st.2.1 st.2.2)

/-- Allocate one variable per thunk in the given list, in order. -/
def varsFor (ops : CsOps σ F) : σ → List (Unit → F) → List (Var F) × σ
  | s, [] => ([], s)
  | s, g :: t =>
    let p := ops.var s g
    let q := varsFor ops p.2 t
    (p.1 :: q.1, q.2)

/-- `Cs::endo` (endomorphism-based scalar multiplication): asserts
`length_in_bits % 4 == 0` (modelled by `none`), allocates the MSB-first
scalar bits, seeds the accumulator with `double(add_group(phi(T), T))`,
runs `length_in_bits / 4` `EndoMul` rows and a final `Zero` row.  The
little-endian bit decomposition of a field element (`into_repr`
`to_bits_le`) is the out-of-scope primitive `bitsLE`. -/
def Cs.endo (ops : CsOps σ F) (bitsLE : F → List Bool) (s : σ)
    (zero : Var F) (constants : Constants F) (p : Var F × Var F)
    (scalar : Var F) (length_in_bits : Nat) :
    Option ((Var F × Var F) × σ) :=
  let xt := p.1
  let yt := p.2
  let rows := length_in_bits / 4
  if length_in_bits % 4 = 0 then
    let bitsBool := ((bitsLE scalar.val).take length_in_bits).reverse
    let bl := varsFor ops s ((List.range length_in_bits).map
      (fun i => fun _ => if bitsBool.getD i false then (1 : F) else 0))
    let bits := bl.1
    let pphi := Cs.scale ops bl.2 constants.endo xt
    let phip := (pphi.1, yt)
    let ppp := Cs.add_group ops pphi.2 zero phip (xt, yt)
    let pacc := Cs.double ops ppp.2 zero ppp.1
    let lr := endoLoop ops constants.endo zero xt yt bits rows 0
      (pacc.1, zero, pacc.2)
    let acc := lr.1
    let frow := [zero, zero, zero, zero, acc.1, acc.2, scalar,
      zero, zero, zero, zero, zero, zero, zero, zero]
    some (acc, ops.gate lr.2.2 ⟨GateType.Zero, frow, []⟩)
  else none

/-- Split a list into consecutive chunks of size `k` (Rust slice
`chunks(k)`), driven by an explicit fuel argument. -/
def chunksOfFuel {α : Type} (k : Nat) : Nat → List α → List (List α)
  | 0, _ => []
  | _, [] => []
  | fuel + 1, l => l.take k :: chunksOfFuel k fuel (l.drop k)

/-- Rust `chunks(k)`. -/
def listChunks {α : Type} (k : Nat) (l : List α) : List (List α) :=
  chunksOfFuel k l.length l

/-- Loop state of `Cs::assert_pack`: the row being built, the running
accumulators `a`, `b`, `n`, and the builder state. -/
structure PackState (σ F : Type) where
  row : List (Var F)
  a : Var F
  b : Var F
  n : Var F
  st : σ

/-- One crumb (2 bits) of an `assert_pack` row: allocates the crumb value
`b0 + 2*b1`, stores it at column `6 + j`, and updates the accumulators. -/
def packCrumb (ops : CsOps σ F) (ps : PackState σ F)
    (jc : Nat × List (Var F)) : PackState σ F :=
  let dflt : Var F := ⟨0, none⟩
  let b0 := jc.2.getD 1 dflt
  let b1 := jc.2.getD 0 dflt
  let pc := ops.var ps.st (fun _ => b0.val + 2 * b1.val)
  let crumb := pc.1
  let row := ps.row.set (6 + jc.1) crumb
  let pa := ops.var pc.2 (fun _ =>
    let x := 2 * ps.a.val
    if b1.val = 0 then x else x + (if b0.val = 1 then 1 else -1))
  let pb := ops.var pa.2 (fun _ =>
    let x := 2 * ps.b.val
    if b1.val = 0 then x + (if b0.val = 1 then 1 else -1) else x)
  let pn := ops.var pb.2 (fun _ => ps.n.val * 2 * 2 + crumb.val)
  ⟨row, pa.1, pb.1, pn.1, pn.2⟩

/-- One 16-bit row of `Cs::assert_pack`: builds a full row of fresh
fillers, places `n`, `a`, `b` (columns 0, 2, 3), processes the eight
crumbs, places `x` or the updated `n` in column 1 and the updated `a`, `b`
in columns 4, 5, and a fresh zero in column 14 -- and then drops the row:
the source never emits a gate for it. -/
def packRowStep (ops : CsOps σ F) (x : Var F) (num_rows : Nat)
    (ps : PackState σ F) (ic : Nat × List (Var F)) : PackState σ F :=
  let r0 := rowInit (fun t _ => ops.var t (fun _ => 0)) ps.st
  let row := ((r0.1.set 0 ps.n).set 2 ps.a).set 3 ps.b
  let ps1 := (listChunks 2 ic.2).enum.foldl (packCrumb ops)
    (PackState.mk row ps.a ps.b ps.n r0.2)
  let row2 := ps1.row.set 1 (if ic.1 = num_rows - 1 then x else ps1.n)
  let row3 := (row2.set 4 ps1.a).set 5 ps1.b
  let pz := ops.var ps1.st (fun _ => 0)
  let row4 := row3.set 14 pz.1
  -- `row4` is complete here, but the source's `assert_pack` never passes
  -- it to `gate`: the constructed row is discarded
  let _ := row4
  ⟨[], ps1.a, ps1.b, ps1.n, pz.2⟩

/-- `Cs::assert_pack`: asserts `bits_lsb.len() % 16 == 0` (modelled by
`none`), reverses to MSB-first, seeds `a = b = 2` and `n = zero`, and runs
one `packRowStep` per 16-bit chunk.  No gate is ever emitted. -/
def Cs.assert_pack (ops : CsOps σ F) (s : σ) (zero x : Var F)
    (bits_lsb : List (Var F)) : Option σ :=
  if bits_lsb.length % 16 = 0 then
    let num_rows := bits_lsb.length / 16
    let bits_msb := bits_lsb.reverse
    let pa := ops.var s (fun _ => (2 : F))
    let pb := ops.var pa.2 (fun _ => (2 : F))
    let ps0 : PackState σ F := ⟨[], pa.1, pb.1, zero, pb.2⟩
    let psf := (listChunks 16 bits_msb).enum.foldl
      (packRowStep ops x num_rows) ps0
    some psf.st
  else none

end Gadgets

section Compiler

/-- A wire target: the `(row, col)` cell a wire points to. -/
structure Wire where
  row : Nat
  col : Nat
deriving DecidableEq

/-- Compiled gate (`CircuitGate<F>`): gate type, coefficients, and the
copy-constraint wires. -/
structure CircuitGate (F : Type) where
  typ : GateType
  coeffs : List F
  wires : List Wire
deriving DecidableEq

/-- Association-list lookup modelling `HashMap::get`. -/
def mapLookup : List (Nat × Wire) → Nat → Option Wire
  | [], _ => none
  | p :: t, k => if k = p.1 then some p.2 else mapLookup t k

/-- Association-list insert modelling `HashMap::insert` (replace or
append). -/
def mapInsert : List (Nat × Wire) → Nat → Wire → List (Nat × Wire)
  | [], k, v => [(k, v)]
  | p :: t, k, v => if k = p.1 then (k, v) :: t else p :: mapInsert t k v

/-- The two hashmaps of `System::gates`: `first_cell` and
`most_recent_cell`. -/
structure WireMaps where
  firstCell : List (Nat × Wire)
  mostRecent : List (Nat × Wire)

/-- One cell of the wiring pass: wire the cell at `pos` holding variable
`idx` to the previous cell of the same variable (`most_recent_cell`
insert), or temporarily to itself when it is the variable's first cell. -/
def wireCellAt (st : WireMaps) (pos : Wire) (idx : Nat) : Wire × WireMaps :=
  match mapLookup st.mostRecent idx with
  | some w => (w, { st with mostRecent := mapInsert st.mostRecent idx pos })
  | none =>
    (pos, ⟨mapInsert st.firstCell idx pos, mapInsert st.mostRecent idx pos⟩)

/-- The `array_init(|col| ...)` of `System::gates`: compute the wires of
row `r`, visiting columns left to right from column `c`. -/
def wireRowGo (r : Nat) : WireMaps → Nat → List Nat → List Wire × WireMaps
  | st, _, [] => ([], st)
  | st, c, i :: t =>
    let p := wireCellAt st ⟨r, c⟩ i
    let q := wireRowGo r p.2 (c + 1) t
    (p.1 :: q.1, q.2)

/-- The main loop of `System::gates`: convert every `GateSpec` into a
`CircuitGate`, threading the wiring maps row-major.  The `array_init`
builds the `wires` array of width `PERMUTS = 7`, so only the first
`PERMUTS` cells of each row are visited and wired. -/
def wirePassGo {F : Type} :
    WireMaps → Nat → List (GateSpec F) → List (CircuitGate F) × WireMaps
  | st, _, [] => ([], st)
  | st, r, g :: t =>
    let p := wireRowGo r st 0 ((g.row.map Var.index).take PERMUTS)
    let q := wirePassGo p.2 (r + 1) t
    (⟨g.typ, g.coeffs, p.1⟩ :: q.1, q.2)

/-- `gates[r].wires[c] = w` on a gate list (out-of-range writes are
dropped, matching in-bounds Rust indexing which never goes out of range
here). -/
def setWire {F : Type} :
    List (CircuitGate F) → Nat → Nat → Wire → List (CircuitGate F)
  | [], _, _, _ => []
  | g :: t, 0, c, w => { g with wires := g.wires.set c w } :: t
  | g :: t, r + 1, c, w => g :: setWire t r c w

/-- Body of the final loop of `System::gates`: for the entry
`(var, first)` of `first_cell`, overwrite the wire at the first cell with
`most_recent_cell[var]`.  The `unwrap` cannot fail (every first-seen key
is inserted into both maps); the impossible branch leaves the gates
unchanged. -/
def finishStep {F : Type} (mr : List (Nat × Wire))
    (acc : List (CircuitGate F)) (p : Nat × Wire) : List (CircuitGate F) :=
  match mapLookup mr p.1 with
  | some last => setWire acc p.2.row p.2.col last
  | none => acc

/-- The final loop of `System::gates`: close each variable's cycle by
overwriting the wire at its first cell with its last cell. -/
def finishCycles {F : Type} (st : WireMaps) (gs : List (CircuitGate F)) :
    List (CircuitGate F) :=
  st.firstCell.foldl (finishStep st.mostRecent) gs

/-- `System::gates`: compile the gate-spec list into circuit gates with
copy-constraint wires.  Each gate's `wires` array is `PERMUTS = 7` wide,
so only the first 7 cells of each row participate in the wiring. -/
def System.compileGates {F : Type} (s : System F) : List (CircuitGate F) :=
  let p := wirePassGo ⟨[], []⟩ 0 s.gates
  finishCycles p.2 p.1

/-- Cells of one row: positions `(r, c), (r, c+1), ...` paired with the
variable indices sitting there. -/
def idxCells (r : Nat) : Nat → List Nat → List (Wire × Nat)
  | _, [] => []
  | c, i :: t => (⟨r, c⟩, i) :: idxCells r (c + 1) t

/-- All wired cells of a gate list in row-major emission order: the
first `PERMUTS` columns of each row, the only cells the compiler's
`array_init` over the `[Wire; PERMUTS]` wires array visits. -/
def cellsGo {F : Type} : Nat → List (GateSpec F) → List (Wire × Nat)
  | _, [] => []
  | r, g :: t =>
    idxCells r 0 ((g.row.map Var.index).take PERMUTS) ++ cellsGo (r + 1) t

/-- The cells holding variable `v`, in order. -/
def occsIn (v : Nat) (cells : List (Wire × Nat)) : List Wire :=
  cells.filterMap (fun p => if p.2 = v then some p.1 else none)

/-- The wired cells (within the first `PERMUTS` columns) of a gate list
holding variable `v`, in row-major emission order. -/
def occs {F : Type} (v : Nat) (gates : List (GateSpec F)) : List Wire :=
  occsIn v (cellsGo 0 gates)

/-- The wire stored at cell `pos` of a compiled gate list. -/
def wireAt {F : Type} (gs : List (CircuitGate F)) (pos : Wire) : Option Wire :=
  (gs[pos.row]?).bind (fun g => g.wires[pos.col]?)

/-- Flat, cell-by-cell form of the wiring pass: same per-cell step as
`wireRowGo`/`wirePassGo`, but over an already flattened cell list. -/
def assignCells : WireMaps → List (Wire × Nat) → List Wire × WireMaps
  | st, [] => ([], st)
  | st, p :: t =>
    let q := wireCellAt st p.1 p.2
    let rest := assignCells q.2 t
    (q.1 :: rest.1, rest.2)

end Compiler

section ExamplesAndHelpers

instance factPrimeFive : Fact (Nat.Prime 5) := ⟨by norm_num⟩

variable {F : Type} [Field F] [DecidableEq F]

/-- Value of the first generic sub-gate relation
`q_l*l + q_r*r + q_o*o + q_m*l*r + q_c` (the claim's and spec's gate
equation; the constraint layer that checks it lives outside this crate). -/
def singleGenericEval (coeffs : List F) (l r o : F) : F :=
  coeffs.getD 0 0 * l + coeffs.getD 1 0 * r + coeffs.getD 2 0 * o +
    coeffs.getD 3 0 * (l * r) + coeffs.getD 4 0

/-- The equality test generated by `#[derive(PartialEq)]` on `Var<F>`:
field-wise structural comparison of `index` and `value`. -/
def varEqRust (v w : Var F) : Bool :=
  v.index == w.index && v.value == w.value

/-- A single 15-column gate row in which variable 7 occupies columns
0, 1 and 2 and twelve other variables occupy the remaining columns. -/
def exRow : List (Var (ZMod 5)) :=
  [⟨7, none⟩, ⟨7, none⟩, ⟨7, none⟩, ⟨3, none⟩, ⟨4, none⟩, ⟨5, none⟩,
   ⟨6, none⟩, ⟨8, none⟩, ⟨9, none⟩, ⟨10, none⟩, ⟨11, none⟩, ⟨12, none⟩,
   ⟨13, none⟩, ⟨14, none⟩, ⟨15, none⟩]

/-- A circuit whose single gate row repeats variable 7 at three cells. -/
def exC1 : System (ZMod 5) :=
  ⟨16, [⟨GateType.Generic, exRow, []⟩]⟩

/-- Fallback gate for out-of-range indexing in concrete statements. -/
def defaultGate : CircuitGate (ZMod 5) :=
  ⟨GateType.Zero, [], []⟩

/-- Fallback gate spec for out-of-range indexing in concrete statements. -/
def defaultSpec : GateSpec (ZMod 5) :=
  ⟨GateType.Zero, [], []⟩

end ExamplesAndHelpers

section BasicLemmas

variable {F : Type} [Field F] [DecidableEq F] {σ : Type}

/-- Explicit form of the column index list. -/
theorem range_columns :
    List.range COLUMNS = [0, 1, 2, 3, 4, 5, 6, 7, 8, 9, 10, 11, 12, 13, 14] := by
  rfl

/-- A row initializer whose cells never touch the builder state leaves the
state unchanged. -/
theorem rowInit_state_id (cell : σ → Nat → Var F × σ) (s : σ)
    (hc : ∀ t i, (cell t i).2 = t) : (rowInit cell s).2 = s := by
  have key : ∀ (l : List Nat) (acc : List (Var F) × σ),
      (l.foldl (fun acc i =>
        let p := cell acc.2 i
        (acc.1 ++ [p.1], p.2)) acc).2 = acc.2 := by
    intro l
    induction l with
    | nil => intro acc; rfl
    | cons i t ih =>
      intro acc
      rw [List.foldl_cons, ih]
      exact hc acc.2 i
  exact key _ _

/-- A `packCrumb` step only allocates variables; on the witness backend it
leaves the builder state unchanged. -/
theorem packCrumb_wit_st (ps : PackState (WitnessGenerator F) F)
    (jc : Nat × List (Var F)) :
    (packCrumb witnessOps ps jc).st = ps.st := rfl

/-- Folding `packCrumb` over any crumb list preserves the witness builder
state. -/
theorem foldl_packCrumb_wit_st (l : List (Nat × List (Var F)))
    (ps : PackState (WitnessGenerator F) F) :
    (l.foldl (packCrumb witnessOps) ps).st = ps.st := by
  induction l generalizing ps with
  | nil => rfl
  | cons jc t ih => rw [List.foldl_cons, ih, packCrumb_wit_st]

/-- A `packRowStep` never emits a gate; on the witness backend it leaves
the builder state unchanged. -/
theorem packRowStep_wit_st (x : Var F) (num_rows : Nat)
    (ps : PackState (WitnessGenerator F) F) (ic : Nat × List (Var F)) :
    (packRowStep witnessOps x num_rows ps ic).st = ps.st := by
  show ((listChunks 2 ic.2).enum.foldl (packCrumb witnessOps) _).st = ps.st
  rw [foldl_packCrumb_wit_st]
  show (rowInit (fun t _ => witnessOps.var t (fun _ => 0)) ps.st).2 = ps.st
  exact rowInit_state_id _ _ (fun _ _ => rfl)

/-- Folding `packRowStep` over any chunk list preserves the witness
builder state. -/
theorem foldl_packRowStep_wit_st (x : Var F) (num_rows : Nat)
    (l : List (Nat × List (Var F))) (ps : PackState (WitnessGenerator F) F) :
    (l.foldl (packRowStep witnessOps x num_rows) ps).st = ps.st := by
  induction l generalizing ps with
  | nil => rfl
  | cons ic t ih => rw [List.foldl_cons, ih, packRowStep_wit_st]

end BasicLemmas

section CompilerLemmas

/-- Looking up the freshly inserted key returns the inserted wire. -/
theorem mapLookup_insert_self (m : List (Nat × Wire)) (k : Nat) (v : Wire) :
    mapLookup (mapInsert m k v) k = some v := by
  induction m with
  | nil => simp [mapInsert, mapLookup]
  | cons p t ih =>
    by_cases h : k = p.1
    · simp [mapInsert, mapLookup, h]
    · simp [mapInsert, mapLookup, h, ih]

/-- Inserting one key leaves the lookups of other keys unchanged. -/
theorem mapLookup_insert_ne (m : List (Nat × Wire)) (k k' : Nat) (v : Wire)
    (h : k' ≠ k) : mapLookup (mapInsert m k v) k' = mapLookup m k' := by
  induction m with
  | nil => simp [mapInsert, mapLookup, h]
  | cons p t ih =>
    by_cases hk : k = p.1
    · subst hk
      simp [mapInsert, mapLookup, h]
    · by_cases hk' : k' = p.1
      · simp [mapInsert, mapLookup, hk, hk']
      · simp [mapInsert, mapLookup, hk, hk', ih]

/-- A key of the map after an insert is the inserted key or an old key. -/
theorem mapInsert_keys_mem (m : List (Nat × Wire)) (k a : Nat) (v : Wire) :
    a ∈ (mapInsert m k v).map Prod.fst →
    a = k ∨ a ∈ m.map Prod.fst := by
  induction m with
  | nil =>
    intro h
    simp only [mapInsert, List.map_cons, List.map_nil,
      List.mem_singleton] at h
    exact Or.inl h
  | cons p t ih =>
    intro h
    by_cases hk : k = p.1
    · subst hk
      simp only [mapInsert, if_true, eq_self_iff_true, List.map_cons,
        List.mem_cons] at h
      rcases h with h | h
      · exact Or.inl h
      · exact Or.inr (List.mem_cons_of_mem _ h)
    · simp only [mapInsert, if_neg hk, List.map_cons, List.mem_cons] at h
      rcases h with h | h
      · exact Or.inr (List.mem_cons.mpr (Or.inl h))
      · rcases ih h with h' | h'
        · exact Or.inl h'
        · exact Or.inr (List.mem_cons_of_mem _ h')

/-- Insertion preserves distinctness of keys. -/
theorem mapInsert_keys_nodup (m : List (Nat × Wire)) (k : Nat) (v : Wire)
    (h : (m.map Prod.fst).Nodup) :
    ((mapInsert m k v).map Prod.fst).Nodup := by
  induction m with
  | nil => simp [mapInsert]
  | cons p t ih =>
    by_cases hk : k = p.1
    · subst hk
      simpa [mapInsert] using h
    · simp only [mapInsert, if_neg hk, List.map_cons, List.nodup_cons]
      simp only [List.map_cons, List.nodup_cons] at h
      refine ⟨fun hm => ?_, ih h.2⟩
      rcases mapInsert_keys_mem t k p.1 v hm with h' | h'
      · exact hk h'.symm
      · exact h.1 h'

/-- A successful lookup exhibits a member of the association list. -/
theorem mapLookup_mem (m : List (Nat × Wire)) (k : Nat) (v : Wire)
    (h : mapLookup m k = some v) : (k, v) ∈ m := by
  induction m with
  | nil => simp [mapLookup] at h
  | cons p t ih =>
    by_cases hk : k = p.1
    · subst hk
      have h' : p.2 = v := by simpa [mapLookup] using h
      rw [← h']
      exact List.mem_cons_self _ _
    · simp only [mapLookup, if_neg hk] at h
      exact List.mem_cons_of_mem _ (ih h)

/-- On an association list with distinct keys, membership determines the
lookup. -/
theorem mem_mapLookup (m : List (Nat × Wire)) (k : Nat) (v : Wire)
    (hm : (k, v) ∈ m) (hn : (m.map Prod.fst).Nodup) :
    mapLookup m k = some v := by
  induction m with
  | nil => simp at hm
  | cons p t ih =>
    simp only [List.map_cons, List.nodup_cons] at hn
    rcases List.mem_cons.mp hm with h | h
    · subst h
      simp [mapLookup]
    · have hk : k ≠ p.1 := by
        intro he
        exact hn.1 (he ▸ (List.mem_map.mpr ⟨(k, v), h, rfl⟩))
      simp only [mapLookup, if_neg hk]
      exact ih h hn.2

/-- Occurrence lists split over appends. -/
theorem occsIn_append (v : Nat) (a b : List (Wire × Nat)) :
    occsIn v (a ++ b) = occsIn v a ++ occsIn v b :=
  List.filterMap_append a b _

/-- Occurrences in a single cell. -/
theorem occsIn_single (v : Nat) (c : Wire × Nat) :
    occsIn v [c] = if c.2 = v then [c.1] else [] := by
  by_cases h : c.2 = v <;> simp [occsIn, h]

/-- Occurrence positions form a sublist of all cell positions. -/
theorem occsIn_sublist (v : Nat) (cells : List (Wire × Nat)) :
    List.Sublist (occsIn v cells) (cells.map Prod.fst) := by
  induction cells with
  | nil => simp [occsIn]
  | cons c t ih =>
    by_cases h : c.2 = v
    · simpa [occsIn, h] using List.Sublist.cons₂ c.1 ih
    · simpa [occsIn, h] using List.Sublist.cons c.1 ih

/-- A position occurring for `v` is a cell holding `v`. -/
theorem occsIn_mem (v : Nat) (cells : List (Wire × Nat)) (w : Wire)
    (h : w ∈ occsIn v cells) : (w, v) ∈ cells := by
  rcases List.mem_filterMap.mp h with ⟨c, hc, he⟩
  by_cases hv : c.2 = v
  · simp only [if_pos hv, Option.some.injEq] at he
    rcases c with ⟨cw, cv⟩
    cases hv
    cases he
    exact hc
  · simp [if_neg hv] at he

/-- Indexing an occurrence list: the `i`-th occurrence sits at a cell
index `k` whose strict prefix contains exactly the first `i`
occurrences. -/
theorem occsIn_index (v : Nat) (cells : List (Wire × Nat)) :
    ∀ i w, (occsIn v cells)[i]? = some w →
    ∃ k, k < cells.length ∧ cells[k]? = some (w, v) ∧
      occsIn v (cells.take k) = (occsIn v cells).take i := by
  induction cells with
  | nil => intro i w h; simp [occsIn] at h
  | cons c t ih =>
    intro i w h
    by_cases hv : c.2 = v
    · have hc : occsIn v (c :: t) = c.1 :: occsIn v t := by
        simp [occsIn, hv]
      match i with
      | 0 =>
        rw [hc] at h
        simp only [List.getElem?_cons_zero, Option.some.injEq] at h
        refine ⟨0, by simp, ?_, by rfl⟩
        simp only [List.getElem?_cons_zero, Option.some.injEq]
        rcases c with ⟨cw, cv⟩
        cases hv
        cases h
        rfl
      | i + 1 =>
        rw [hc] at h
        simp only [List.getElem?_cons_succ] at h
        rcases ih i w h with ⟨k, hk, hcell, htake⟩
        refine ⟨k + 1, by simpa using hk, by simpa using hcell, ?_⟩
        rw [hc, List.take_succ_cons, List.take_succ_cons]
        have hl : occsIn v (c :: List.take k t) =
            c.1 :: occsIn v (List.take k t) := by
          simp [occsIn, hv]
        rw [hl, htake]
    · have hc : occsIn v (c :: t) = occsIn v t := by
        simp [occsIn, hv]
      rw [hc] at h
      rcases ih i w h with ⟨k, hk, hcell, htake⟩
      refine ⟨k + 1, by simpa using hk, by simpa using hcell, ?_⟩
      rw [hc, List.take_succ_cons]
      have hl : occsIn v (c :: List.take k t) = occsIn v (List.take k t) := by
        simp [occsIn, hv]
      rw [hl, htake]

/-- Head of an append with nonempty left part. -/
theorem head?_append_of_ne_nil {α : Type} (l l' : List α) (h : l ≠ []) :
    (l ++ l').head? = l.head? := by
  cases l with
  | nil => exact absurd rfl h
  | cons a t => rfl

/-- Occurrences after appending one cell. -/
theorem occsIn_concat (u : Nat) (done : List (Wire × Nat))
    (c : Wire × Nat) :
    occsIn u (done ++ [c]) =
      occsIn u done ++ (if c.2 = u then [c.1] else []) := by
  rw [occsIn_append, occsIn_single]

/-- Main invariant of the cell-by-cell wiring pass.  Starting from maps
that correctly describe the already processed cells `done`, processing
`rest`:
(1) leaves `most_recent_cell` pointing at each variable's last occurrence,
(2) leaves `first_cell` pointing at each variable's first occurrence,
(3) keeps the keys of `first_cell` distinct,
(4) produces one wire per cell, and
(5) wires each cell to the previous occurrence of its variable (or to
itself for a first occurrence). -/
theorem assignCells_spec (rest : List (Wire × Nat)) :
    ∀ (done : List (Wire × Nat)) (st : WireMaps),
    (∀ u, mapLookup st.mostRecent u = (occsIn u done).getLast?) →
    (∀ u, mapLookup st.firstCell u = (occsIn u done).head?) →
    (st.firstCell.map Prod.fst).Nodup →
    (∀ u, mapLookup (assignCells st rest).2.mostRecent u =
      (occsIn u (done ++ rest)).getLast?) ∧
    (∀ u, mapLookup (assignCells st rest).2.firstCell u =
      (occsIn u (done ++ rest)).head?) ∧
    ((assignCells st rest).2.firstCell.map Prod.fst).Nodup ∧
    (assignCells st rest).1.length = rest.length ∧
    (∀ k pc, rest[k]? = some pc →
      (assignCells st rest).1[k]? =
        some (((occsIn pc.2 (done ++ rest.take k)).getLast?).getD pc.1)) := by
  induction rest with
  | nil =>
    intro done st hmr hfc hnd
    refine ⟨?_, ?_, hnd, rfl, ?_⟩
    · intro u; simpa using hmr u
    · intro u; simpa using hfc u
    · intro k pc h; simp at h
  | cons c t ih =>
    intro done st hmr hfc hnd
    have hq : assignCells st (c :: t) =
        ((wireCellAt st c.1 c.2).1 ::
          (assignCells (wireCellAt st c.1 c.2).2 t).1,
         (assignCells (wireCellAt st c.1 c.2).2 t).2) := rfl
    have hsplit : done ++ c :: t = (done ++ [c]) ++ t := by simp
    cases hlook : mapLookup st.mostRecent c.2 with
    | some w =>
      have hwc : wireCellAt st c.1 c.2 =
          (w, { st with mostRecent := mapInsert st.mostRecent c.2 c.1 }) := by
        simp [wireCellAt, hlook]
      have hne : occsIn c.2 done ≠ [] := by
        intro he
        rw [hmr c.2, he] at hlook
        simp at hlook
      have hmr' : ∀ u,
          mapLookup (mapInsert st.mostRecent c.2 c.1) u =
            (occsIn u (done ++ [c])).getLast? := by
        intro u
        by_cases hu : u = c.2
        · subst hu
          rw [mapLookup_insert_self, occsIn_concat, if_pos rfl,
            List.getLast?_concat]
        · rw [mapLookup_insert_ne _ _ _ _ hu, occsIn_concat,
            if_neg (fun he => hu he.symm), List.append_nil]
          exact hmr u
      have hfc' : ∀ u,
          mapLookup st.firstCell u = (occsIn u (done ++ [c])).head? := by
        intro u
        by_cases hu : u = c.2
        · subst hu
          rw [occsIn_concat, if_pos rfl, head?_append_of_ne_nil _ _ hne]
          exact hfc c.2
        · rw [occsIn_concat, if_neg (fun he => hu he.symm), List.append_nil]
          exact hfc u
      rcases ih (done ++ [c])
          { st with mostRecent := mapInsert st.mostRecent c.2 c.1 }
          hmr' hfc' hnd with ⟨m1, m2, m3, m4, m5⟩
      rw [hq, hwc]
      refine ⟨?_, ?_, ?_, ?_, ?_⟩
      · intro u; rw [hsplit]; exact m1 u
      · intro u; rw [hsplit]; exact m2 u
      · exact m3
      · simpa using m4
      · intro k pc hk
        match k with
        | 0 =>
          simp only [List.getElem?_cons_zero, Option.some.injEq] at hk
          subst hk
          simp only [List.getElem?_cons_zero, Option.some.injEq,
            List.take_zero, List.append_nil]
          rw [hmr c.2] at hlook
          rw [hlook]
          rfl
        | k + 1 =>
          simp only [List.getElem?_cons_succ] at hk
          simp only [List.getElem?_cons_succ]
          rw [List.take_succ_cons, ← List.singleton_append,
            ← List.append_assoc]
          exact m5 k pc hk
    | none =>
      have hwc : wireCellAt st c.1 c.2 =
          (c.1, ⟨mapInsert st.firstCell c.2 c.1,
            mapInsert st.mostRecent c.2 c.1⟩) := by
        simp [wireCellAt, hlook]
      have hnil : occsIn c.2 done = [] := by
        rw [hmr c.2] at hlook
        exact List.getLast?_eq_none_iff.mp hlook
      have hmr' : ∀ u,
          mapLookup (mapInsert st.mostRecent c.2 c.1) u =
            (occsIn u (done ++ [c])).getLast? := by
        intro u
        by_cases hu : u = c.2
        · subst hu
          rw [mapLookup_insert_self, occsIn_concat, if_pos rfl,
            List.getLast?_concat]
        · rw [mapLookup_insert_ne _ _ _ _ hu, occsIn_concat,
            if_neg (fun he => hu he.symm), List.append_nil]
          exact hmr u
      have hfc' : ∀ u,
          mapLookup (mapInsert st.firstCell c.2 c.1) u =
            (occsIn u (done ++ [c])).head? := by
        intro u
        by_cases hu : u = c.2
        · subst hu
          rw [mapLookup_insert_self, occsIn_concat, if_pos rfl, hnil]
          rfl
        · rw [mapLookup_insert_ne _ _ _ _ hu, occsIn_concat,
            if_neg (fun he => hu he.symm), List.append_nil]
          exact hfc u
      rcases ih (done ++ [c])
          ⟨mapInsert st.firstCell c.2 c.1, mapInsert st.mostRecent c.2 c.1⟩
          hmr' hfc' (mapInsert_keys_nodup _ _ _ hnd) with
        ⟨m1, m2, m3, m4, m5⟩
      rw [hq, hwc]
      refine ⟨?_, ?_, ?_, ?_, ?_⟩
      · intro u; rw [hsplit]; exact m1 u
      · intro u; rw [hsplit]; exact m2 u
      · exact m3
      · simpa using m4
      · intro k pc hk
        match k with
        | 0 =>
          simp only [List.getElem?_cons_zero, Option.some.injEq] at hk
          subst hk
          simp only [List.getElem?_cons_zero, Option.some.injEq,
            List.take_zero, List.append_nil]
          rw [hnil]
          rfl
        | k + 1 =>
          simp only [List.getElem?_cons_succ] at hk
          simp only [List.getElem?_cons_succ]
          rw [List.take_succ_cons, ← List.singleton_append,
            ← List.append_assoc]
          exact m5 k pc hk

/-- Length of a row's cell list. -/
theorem idxCells_length (r : Nat) (idxs : List Nat) :
    ∀ c, (idxCells r c idxs).length = idxs.length := by
  induction idxs with
  | nil => intro c; rfl
  | cons i t ih => intro c; simp [idxCells, ih]

/-- Indexing a row's cell list. -/
theorem idxCells_getElem? (r : Nat) (idxs : List Nat) :
    ∀ c m, (idxCells r c idxs)[m]? =
      (idxs[m]?).map (fun i => (Wire.mk r (c + m), i)) := by
  induction idxs with
  | nil => intro c m; simp [idxCells]
  | cons i t ih =>
    intro c m
    match m with
    | 0 => simp [idxCells]
    | m + 1 =>
      have hu : idxCells r c (i :: t) = (⟨r, c⟩, i) :: idxCells r (c + 1) t :=
        rfl
      rw [hu, List.getElem?_cons_succ, ih (c + 1) m,
        List.getElem?_cons_succ]
      have he : c + 1 + m = c + (m + 1) := by omega
      rw [he]

/-- Members of a row's cell list: the row index is `r`, the column is at
least `c`, and the stored variable is the one at that column. -/
theorem idxCells_mem (r : Nat) (idxs : List Nat) :
    ∀ c pc, pc ∈ idxCells r c idxs →
      pc.1.row = r ∧ c ≤ pc.1.col ∧ idxs[pc.1.col - c]? = some pc.2 := by
  induction idxs with
  | nil => intro c pc h; simp [idxCells] at h
  | cons i t ih =>
    intro c pc h
    rcases List.mem_cons.mp h with h | h
    · subst h
      refine ⟨rfl, Nat.le_refl c, ?_⟩
      simp
    · rcases ih (c + 1) pc h with ⟨h1, h2, h3⟩
      refine ⟨h1, Nat.le_of_succ_le h2, ?_⟩
      have he : pc.1.col - c = (pc.1.col - (c + 1)) + 1 := by omega
      rw [he, List.getElem?_cons_succ]
      exact h3

/-- Members of the full cell list: the row index locates the gate and the
column locates the variable within that gate's row. -/
theorem cellsGo_mem {F : Type} (gs : List (GateSpec F)) :
    ∀ r pc, pc ∈ cellsGo r gs →
      r ≤ pc.1.row ∧ ∃ g, gs[pc.1.row - r]? = some g ∧
        ((g.row.map Var.index).take PERMUTS)[pc.1.col]? = some pc.2 := by
  induction gs with
  | nil => intro r pc h; simp [cellsGo] at h
  | cons g t ih =>
    intro r pc h
    rcases List.mem_append.mp h with h | h
    · rcases idxCells_mem r _ 0 pc h with ⟨h1, _, h3⟩
      refine ⟨Nat.le_of_eq h1.symm, g, ?_, ?_⟩
      · rw [h1, Nat.sub_self]
        simp
      · rw [Nat.sub_zero] at h3
        exact h3
    · rcases ih (r + 1) pc h with ⟨h1, g', h2, h3⟩
      refine ⟨Nat.le_of_succ_le h1, g', ?_, h3⟩
      have he : pc.1.row - r = (pc.1.row - (r + 1)) + 1 := by omega
      rw [he, List.getElem?_cons_succ]
      exact h2

/-- A cell position determines the variable sitting there. -/
theorem cellsGo_functional {F : Type} (gs : List (GateSpec F)) (r : Nat)
    (pos : Wire) (v v' : Nat) (h1 : (pos, v) ∈ cellsGo r gs)
    (h2 : (pos, v') ∈ cellsGo r gs) : v = v' := by
  rcases cellsGo_mem gs r (pos, v) h1 with ⟨_, g, hg, hv⟩
  rcases cellsGo_mem gs r (pos, v') h2 with ⟨_, g', hg', hv'⟩
  rw [hg] at hg'
  cases hg'
  rw [hv] at hv'
  cases hv'
  rfl

/-- Positions within one row are pairwise distinct. -/
theorem idxCells_fst_nodup (r : Nat) (idxs : List Nat) :
    ∀ c, ((idxCells r c idxs).map Prod.fst).Nodup := by
  induction idxs with
  | nil => intro c; simp [idxCells]
  | cons i t ih =>
    intro c
    simp only [idxCells, List.map_cons, List.nodup_cons]
    refine ⟨fun hm => ?_, ih (c + 1)⟩
    rcases List.mem_map.mp hm with ⟨pc, hpc, he⟩
    rcases idxCells_mem r t (c + 1) pc hpc with ⟨_, h2, _⟩
    rw [he] at h2
    have h2' : c + 1 ≤ c := h2
    omega

/-- All cell positions of a gate list are pairwise distinct. -/
theorem cellsGo_fst_nodup {F : Type} (gs : List (GateSpec F)) :
    ∀ r, ((cellsGo r gs).map Prod.fst).Nodup := by
  induction gs with
  | nil => intro r; simp [cellsGo]
  | cons g t ih =>
    intro r
    show ((idxCells r 0 ((g.row.map Var.index).take PERMUTS) ++
      cellsGo (r + 1) t).map Prod.fst).Nodup
    rw [List.map_append]
    refine List.Nodup.append (idxCells_fst_nodup r _ 0) (ih (r + 1)) ?_
    intro a ha ha'
    rcases List.mem_map.mp ha with ⟨pc, hpc, he⟩
    rcases idxCells_mem r _ 0 pc hpc with ⟨h1, _, _⟩
    rcases List.mem_map.mp ha' with ⟨pc', hpc', he'⟩
    rcases cellsGo_mem t (r + 1) pc' hpc' with ⟨h1', _, _, _⟩
    rw [← he'] at he
    rw [he] at h1
    omega

/-- The per-row wiring loop is the flat pass on the row's cells. -/
theorem wireRowGo_eq_assign (r : Nat) (idxs : List Nat) :
    ∀ st c, wireRowGo r st c idxs = assignCells st (idxCells r c idxs) := by
  induction idxs with
  | nil => intro st c; rfl
  | cons i t ih =>
    intro st c
    simp only [wireRowGo, idxCells, assignCells]
    rw [ih]

/-- The flat pass splits over appended cell lists. -/
theorem assignCells_append (a b : List (Wire × Nat)) :
    ∀ st, assignCells st (a ++ b) =
      ((assignCells st a).1 ++ (assignCells (assignCells st a).2 b).1,
        (assignCells (assignCells st a).2 b).2) := by
  induction a with
  | nil => intro st; rfl
  | cons c t ih =>
    intro st
    have hu : (c :: t) ++ b = c :: (t ++ b) := rfl
    rw [hu]
    show ((wireCellAt st c.1 c.2).1 ::
        (assignCells (wireCellAt st c.1 c.2).2 (t ++ b)).1,
      (assignCells (wireCellAt st c.1 c.2).2 (t ++ b)).2) = _
    rw [ih]
    rfl

/-- The flat pass produces one wire per cell. -/
theorem assignCells_length (cells : List (Wire × Nat)) :
    ∀ st, (assignCells st cells).1.length = cells.length := by
  induction cells with
  | nil => intro st; rfl
  | cons c t ih => intro st; simp [assignCells, ih]

/-- The final wiring maps of the row-major pass agree with those of the
flat pass over all cells. -/
theorem wirePassGo_state {F : Type} (gs : List (GateSpec F)) :
    ∀ st r, (wirePassGo st r gs).2 = (assignCells st (cellsGo r gs)).2 := by
  induction gs with
  | nil => intro st r; rfl
  | cons g t ih =>
    intro st r
    show (wirePassGo
        (wireRowGo r st 0 ((g.row.map Var.index).take PERMUTS)).2
        (r + 1) t).2 =
      (assignCells st (idxCells r 0 ((g.row.map Var.index).take PERMUTS) ++
        cellsGo (r + 1) t)).2
    rw [ih, wireRowGo_eq_assign, assignCells_append]

/-- The main pass emits one circuit gate per gate spec. -/
theorem wirePassGo_length {F : Type} (gs : List (GateSpec F)) :
    ∀ st r, (wirePassGo st r gs).1.length = gs.length := by
  induction gs with
  | nil => intro st r; rfl
  | cons g t ih => intro st r; simp [wirePassGo, ih]

/-- The main pass copies each spec's gate type unchanged. -/
theorem wirePassGo_typ {F : Type} (gs : List (GateSpec F)) :
    ∀ (st : WireMaps) (r j : Nat),
      ((wirePassGo st r gs).1[j]?).map CircuitGate.typ =
      (gs[j]?).map GateSpec.typ := by
  induction gs with
  | nil => intro st r j; rfl
  | cons g t ih =>
    intro st r j
    have hcons : (wirePassGo st r (g :: t)).1 =
        CircuitGate.mk g.typ g.coeffs
          (wireRowGo r st 0 ((g.row.map Var.index).take PERMUTS)).1 ::
          (wirePassGo
            (wireRowGo r st 0 ((g.row.map Var.index).take PERMUTS)).2
            (r + 1) t).1 := rfl
    match j with
    | 0 =>
      rw [hcons, List.getElem?_cons_zero, List.getElem?_cons_zero]
      rfl
    | j + 1 =>
      rw [hcons, List.getElem?_cons_succ, List.getElem?_cons_succ]
      exact ih _ _ j

/-- The main pass copies each spec's coefficient vector unchanged. -/
theorem wirePassGo_coeffs {F : Type} (gs : List (GateSpec F)) :
    ∀ (st : WireMaps) (r j : Nat),
      ((wirePassGo st r gs).1[j]?).map CircuitGate.coeffs =
      (gs[j]?).map GateSpec.coeffs := by
  induction gs with
  | nil => intro st r j; rfl
  | cons g t ih =>
    intro st r j
    have hcons : (wirePassGo st r (g :: t)).1 =
        CircuitGate.mk g.typ g.coeffs
          (wireRowGo r st 0 ((g.row.map Var.index).take PERMUTS)).1 ::
          (wirePassGo
            (wireRowGo r st 0 ((g.row.map Var.index).take PERMUTS)).2
            (r + 1) t).1 := rfl
    match j with
    | 0 =>
      rw [hcons, List.getElem?_cons_zero, List.getElem?_cons_zero]
      rfl
    | j + 1 =>
      rw [hcons, List.getElem?_cons_succ, List.getElem?_cons_succ]
      exact ih _ _ j

/-- The per-row loop produces one wire per column. -/
theorem wireRowGo_fst_length (r : Nat) (idxs : List Nat) :
    ∀ st c, (wireRowGo r st c idxs).1.length = idxs.length := by
  intro st c
  rw [wireRowGo_eq_assign, assignCells_length, idxCells_length]

/-- Each output gate of the main pass has as many wires as its spec's
row has wired cells (its first `PERMUTS` columns). -/
theorem wirePassGo_wires_length {F : Type} (gs : List (GateSpec F)) :
    ∀ (st : WireMaps) (r j : Nat),
      ((wirePassGo st r gs).1[j]?).map
        (fun g : CircuitGate F => g.wires.length) =
      (gs[j]?).map
        (fun g : GateSpec F => ((g.row.map Var.index).take PERMUTS).length)
      := by
  induction gs with
  | nil => intro st r j; rfl
  | cons g t ih =>
    intro st r j
    have hcons : (wirePassGo st r (g :: t)).1 =
        CircuitGate.mk g.typ g.coeffs
          (wireRowGo r st 0 ((g.row.map Var.index).take PERMUTS)).1 ::
          (wirePassGo
            (wireRowGo r st 0 ((g.row.map Var.index).take PERMUTS)).2
            (r + 1) t).1 := rfl
    match j with
    | 0 =>
      rw [hcons, List.getElem?_cons_zero, List.getElem?_cons_zero]
      show some
          (wireRowGo r st 0 ((g.row.map Var.index).take PERMUTS)).1.length =
        some ((g.row.map Var.index).take PERMUTS).length
      rw [wireRowGo_fst_length]
    | j + 1 =>
      rw [hcons, List.getElem?_cons_succ, List.getElem?_cons_succ]
      exact ih _ _ j

/-- The wire stored by the main pass at the `k`-th cell (in row-major
order) is the `k`-th wire of the flat pass. -/
theorem wirePassGo_wireAt {F : Type} (gs : List (GateSpec F)) :
    ∀ (st : WireMaps) (r k : Nat) (pc : Wire × Nat) (w : Wire),
      (cellsGo r gs)[k]? = some pc →
      (assignCells st (cellsGo r gs)).1[k]? = some w →
      ((wirePassGo st r gs).1[pc.1.row - r]?).bind
        (fun g => g.wires[pc.1.col]?) = some w := by
  induction gs with
  | nil => intro st r k pc w h _; simp [cellsGo] at h
  | cons g t ih =>
    intro st r k pc w hcell hw
    have hcell' : (idxCells r 0 ((g.row.map Var.index).take PERMUTS) ++
        cellsGo (r + 1) t)[k]? = some pc := hcell
    have hw' : (assignCells st
        (idxCells r 0 ((g.row.map Var.index).take PERMUTS) ++
          cellsGo (r + 1) t)).1[k]? = some w := hw
    rw [assignCells_append] at hw'
    rw [List.getElem?_append] at hcell'
    by_cases hk :
      k < (idxCells r 0 ((g.row.map Var.index).take PERMUTS)).length
    · rw [if_pos hk] at hcell'
      rw [idxCells_getElem?] at hcell'
      rcases Option.map_eq_some'.mp hcell' with ⟨i, hi, hpc⟩
      have hrow : pc.1.row = r := by rw [← hpc]
      have hcol : pc.1.col = k := by rw [← hpc]; show 0 + k = k; omega
      have hsub : pc.1.row - r = 0 := by omega
      have hcons : (wirePassGo st r (g :: t)).1 =
          CircuitGate.mk g.typ g.coeffs
            (wireRowGo r st 0 ((g.row.map Var.index).take PERMUTS)).1 ::
            (wirePassGo
              (wireRowGo r st 0 ((g.row.map Var.index).take PERMUTS)).2
              (r + 1) t).1 := rfl
      rw [hsub, hcons, List.getElem?_cons_zero]
      show ((wireRowGo r st 0
        ((g.row.map Var.index).take PERMUTS)).1[pc.1.col]?) = some w
      rw [hcol, wireRowGo_eq_assign]
      rw [List.getElem?_append] at hw'
      rw [if_pos (by rwa [assignCells_length])] at hw'
      exact hw'
    · rw [if_neg hk] at hcell'
      have hmem : pc ∈ cellsGo (r + 1) t := List.getElem?_mem hcell'
      rcases cellsGo_mem t (r + 1) pc hmem with ⟨hge, _, _, _⟩
      have hsub : pc.1.row - r = (pc.1.row - (r + 1)) + 1 := by omega
      have hcons : (wirePassGo st r (g :: t)).1 =
          CircuitGate.mk g.typ g.coeffs
            (wireRowGo r st 0 ((g.row.map Var.index).take PERMUTS)).1 ::
            (wirePassGo
              (wireRowGo r st 0 ((g.row.map Var.index).take PERMUTS)).2
              (r + 1) t).1 := rfl
      rw [hsub, hcons, List.getElem?_cons_succ, wireRowGo_eq_assign]
      rw [List.getElem?_append, assignCells_length] at hw'
      rw [if_neg hk, idxCells_length] at hw'
      rw [idxCells_length] at hcell'
      exact ih _ (r + 1)
        (k - ((g.row.map Var.index).take PERMUTS).length) pc w hcell' hw'

/-- Indexing after a `setWire`: only the targeted row changes, and there
only the targeted wire slot. -/
theorem setWire_getElem? {F : Type} (gs : List (CircuitGate F)) :
    ∀ (r c : Nat) (w : Wire) (j : Nat),
      (setWire gs r c w)[j]? =
        if j = r then
          (gs[j]?).map (fun g => { g with wires := g.wires.set c w })
        else gs[j]? := by
  induction gs with
  | nil =>
    intro r c w j
    show ([] : List (CircuitGate F))[j]? = _
    by_cases h : j = r <;> simp [h]
  | cons g t ih =>
    intro r c w j
    match r, j with
    | 0, 0 =>
      have hs : setWire (g :: t) 0 c w =
          { g with wires := g.wires.set c w } :: t := rfl
      rw [hs, List.getElem?_cons_zero, List.getElem?_cons_zero, if_pos rfl]
      rfl
    | 0, j + 1 =>
      have hs : setWire (g :: t) 0 c w =
          { g with wires := g.wires.set c w } :: t := rfl
      rw [hs, List.getElem?_cons_succ, List.getElem?_cons_succ,
        if_neg (by omega)]
    | r + 1, 0 =>
      have hs : setWire (g :: t) (r + 1) c w = g :: setWire t r c w := rfl
      rw [hs, List.getElem?_cons_zero, List.getElem?_cons_zero,
        if_neg (by omega)]
    | r + 1, j + 1 =>
      have hs : setWire (g :: t) (r + 1) c w = g :: setWire t r c w := rfl
      rw [hs, List.getElem?_cons_succ, List.getElem?_cons_succ, ih r c w j]
      by_cases h : j = r
      · rw [if_pos h, if_pos (by omega)]
      · rw [if_neg h, if_neg (by omega)]

/-- A `setWire` elsewhere does not change the wire at `pos`. -/
theorem wireAt_setWire_other {F : Type} (gs : List (CircuitGate F))
    (r c : Nat) (w pos : Wire) (h : pos ≠ ⟨r, c⟩) :
    wireAt (setWire gs r c w) pos = wireAt gs pos := by
  unfold wireAt
  rw [setWire_getElem?]
  by_cases hr : pos.row = r
  · rw [if_pos hr]
    cases hg : gs[pos.row]? with
    | none => rfl
    | some g =>
      have hc : c ≠ pos.col := by
        intro he
        exact h (by cases pos; cases hr; cases he; rfl)
      show ((g.wires.set c w)[pos.col]?) = g.wires[pos.col]?
      rw [List.getElem?_set_ne hc]
  · rw [if_neg hr]

/-- A `setWire` at an in-bounds cell stores the wire there. -/
theorem wireAt_setWire_self {F : Type} (gs : List (CircuitGate F))
    (r c : Nat) (w : Wire) (g : CircuitGate F) (hg : gs[r]? = some g)
    (hc : c < g.wires.length) :
    wireAt (setWire gs r c w) ⟨r, c⟩ = some w := by
  show ((setWire gs r c w)[r]?).bind (fun g => g.wires[c]?) = some w
  rw [setWire_getElem?, if_pos rfl, hg]
  show ((g.wires.set c w)[c]?) = some w
  exact List.getElem?_set_self hc

/-- `setWire` preserves each gate's number of wires. -/
theorem setWire_wires_length {F : Type} (gs : List (CircuitGate F))
    (r c : Nat) (w : Wire) (j : Nat) :
    ((setWire gs r c w)[j]?).map (fun g : CircuitGate F => g.wires.length) =
      (gs[j]?).map (fun g : CircuitGate F => g.wires.length) := by
  rw [setWire_getElem?]
  by_cases h : j = r
  · rw [if_pos h]
    cases hg : gs[j]? with
    | none => rfl
    | some g =>
      show some ((g.wires.set c w).length) = some g.wires.length
      rw [List.length_set]
  · rw [if_neg h]

/-- `setWire` preserves each gate's type. -/
theorem setWire_typ {F : Type} (gs : List (CircuitGate F)) (r c : Nat)
    (w : Wire) (j : Nat) :
    ((setWire gs r c w)[j]?).map CircuitGate.typ =
      (gs[j]?).map CircuitGate.typ := by
  rw [setWire_getElem?]
  by_cases h : j = r
  · rw [if_pos h]
    cases hg : gs[j]? with
    | none => rfl
    | some g => rfl
  · rw [if_neg h]

/-- `setWire` preserves each gate's coefficients. -/
theorem setWire_coeffs {F : Type} (gs : List (CircuitGate F)) (r c : Nat)
    (w : Wire) (j : Nat) :
    ((setWire gs r c w)[j]?).map CircuitGate.coeffs =
      (gs[j]?).map CircuitGate.coeffs := by
  rw [setWire_getElem?]
  by_cases h : j = r
  · rw [if_pos h]
    cases hg : gs[j]? with
    | none => rfl
    | some g => rfl
  · rw [if_neg h]

/-- `setWire` preserves the number of gates. -/
theorem setWire_length {F : Type} (gs : List (CircuitGate F)) :
    ∀ (r c : Nat) (w : Wire), (setWire gs r c w).length = gs.length := by
  induction gs with
  | nil => intro r c w; rfl
  | cons g t ih =>
    intro r c w
    match r with
    | 0 => rfl
    | r + 1 => show (g :: setWire t r c w).length = _; simp [ih]

/-- One cycle-closing step elsewhere does not change the wire at `pos`. -/
theorem finishStep_wireAt_other {F : Type} (mr : List (Nat × Wire))
    (gs : List (CircuitGate F)) (p : Nat × Wire) (pos : Wire)
    (h : p.2 ≠ pos) : wireAt (finishStep mr gs p) pos = wireAt gs pos := by
  unfold finishStep
  cases hl : mapLookup mr p.1 with
  | none => rfl
  | some last =>
    refine wireAt_setWire_other _ _ _ _ _ (fun he => h ?_)
    rw [he]

/-- One cycle-closing step preserves each gate's number of wires. -/
theorem finishStep_wires_length {F : Type} (mr : List (Nat × Wire))
    (gs : List (CircuitGate F)) (p : Nat × Wire) (j : Nat) :
    ((finishStep mr gs p)[j]?).map
      (fun g : CircuitGate F => g.wires.length) =
      (gs[j]?).map (fun g : CircuitGate F => g.wires.length) := by
  unfold finishStep
  cases hl : mapLookup mr p.1 with
  | none => rfl
  | some last => exact setWire_wires_length _ _ _ _ _

/-- The cycle-closing fold never touches a position that is not a first
cell of one of its entries. -/
theorem finish_fold_untouched {F : Type} (mr : List (Nat × Wire))
    (entries : List (Nat × Wire)) :
    ∀ (gs : List (CircuitGate F)) (pos : Wire),
      (∀ p ∈ entries, p.2 ≠ pos) →
      wireAt (entries.foldl (finishStep mr) gs) pos = wireAt gs pos := by
  induction entries with
  | nil => intro gs pos _; rfl
  | cons p t ih =>
    intro gs pos h
    rw [List.foldl_cons, ih _ pos (fun q hq => h q (List.mem_cons_of_mem _ hq)),
      finishStep_wireAt_other mr gs p pos (h p (List.mem_cons_self _ _))]

/-- The cycle-closing fold writes `most_recent[v]` at the first cell of
`v`, provided no other entry writes to the same position. -/
theorem finish_fold_written {F : Type} (mr : List (Nat × Wire))
    (entries : List (Nat × Wire)) :
    ∀ (gs : List (CircuitGate F)) (v : Nat) (fw last : Wire),
      (v, fw) ∈ entries →
      mapLookup mr v = some last →
      (∀ p ∈ entries, p.2 = fw → p = (v, fw)) →
      ((entries.map Prod.fst).Nodup) →
      (∃ g, gs[fw.row]? = some g ∧ fw.col < g.wires.length) →
      wireAt (entries.foldl (finishStep mr) gs) fw = some last := by
  induction entries with
  | nil => intro gs v fw last hmem; simp at hmem
  | cons p t ih =>
    intro gs v fw last hmem hlook honce hnd hbound
    simp only [List.map_cons, List.nodup_cons] at hnd
    rcases List.mem_cons.mp hmem with he | hmem'
    · have hstep : finishStep mr gs p = setWire gs fw.row fw.col last := by
        unfold finishStep
        rw [← he]
        show (match mapLookup mr v with
          | some last => setWire gs fw.row fw.col last
          | none => gs) = _
        rw [hlook]
      have hno : ∀ q ∈ t, q.2 ≠ fw := by
        intro q hq he2
        have hqe := honce q (List.mem_cons_of_mem _ hq) he2
        rw [hqe] at hq
        rw [← he] at hnd
        exact hnd.1 (List.mem_map.mpr ⟨(v, fw), hq, rfl⟩)
      rw [List.foldl_cons, hstep, finish_fold_untouched mr t _ fw hno]
      rcases hbound with ⟨g, hg, hc⟩
      exact wireAt_setWire_self gs fw.row fw.col last g hg hc
    · have hpne : p.2 ≠ fw := by
        intro he2
        have hpe := honce p (List.mem_cons_self _ _) he2
        rw [hpe] at hnd
        exact hnd.1 (List.mem_map.mpr ⟨(v, fw), hmem', rfl⟩)
      rw [List.foldl_cons]
      refine ih (finishStep mr gs p) v fw last hmem' hlook
        (fun q hq hqe => honce q (List.mem_cons_of_mem _ hq) hqe) hnd.2 ?_
      rcases hbound with ⟨g, hg, hc⟩
      have hlen := finishStep_wires_length mr gs p fw.row
      rw [hg] at hlen
      cases hF : (finishStep mr gs p)[fw.row]? with
      | none => rw [hF] at hlen; simp at hlen
      | some g' =>
        rw [hF] at hlen
        simp only [Option.map_some'] at hlen
        refine ⟨g', rfl, ?_⟩
        rw [Option.some.injEq] at hlen
        omega

/-- The cycle-closing fold preserves each gate's type. -/
theorem finish_fold_typ {F : Type} (mr : List (Nat × Wire))
    (entries : List (Nat × Wire)) :
    ∀ (gs : List (CircuitGate F)) (j : Nat),
      ((entries.foldl (finishStep mr) gs)[j]?).map CircuitGate.typ =
        (gs[j]?).map CircuitGate.typ := by
  induction entries with
  | nil => intro gs j; rfl
  | cons p t ih =>
    intro gs j
    rw [List.foldl_cons, ih]
    unfold finishStep
    cases hl : mapLookup mr p.1 with
    | none => rfl
    | some last => exact setWire_typ _ _ _ _ _

/-- The cycle-closing fold preserves each gate's coefficients. -/
theorem finish_fold_coeffs {F : Type} (mr : List (Nat × Wire))
    (entries : List (Nat × Wire)) :
    ∀ (gs : List (CircuitGate F)) (j : Nat),
      ((entries.foldl (finishStep mr) gs)[j]?).map CircuitGate.coeffs =
        (gs[j]?).map CircuitGate.coeffs := by
  induction entries with
  | nil => intro gs j; rfl
  | cons p t ih =>
    intro gs j
    rw [List.foldl_cons, ih]
    unfold finishStep
    cases hl : mapLookup mr p.1 with
    | none => rfl
    | some last => exact setWire_coeffs _ _ _ _ _

/-- Indexing with a bound, phrased through `List.get`. -/
theorem get?_of_get {α : Type} (l : List α) (i : Nat) (h : i < l.length) :
    l[i]? = some (l.get ⟨i, h⟩) := by
  rw [List.getElem?_eq_getElem h, List.get_eq_getElem]

/-- The cycle-closing fold preserves the number of gates. -/
theorem finish_fold_length {F : Type} (mr : List (Nat × Wire))
    (entries : List (Nat × Wire)) :
    ∀ gs : List (CircuitGate F),
      (entries.foldl (finishStep mr) gs).length = gs.length := by
  induction entries with
  | nil => intro gs; rfl
  | cons p t ih =>
    intro gs
    rw [List.foldl_cons, ih]
    unfold finishStep
    cases hl : mapLookup mr p.1 with
    | none => rfl
    | some last => exact setWire_length _ _ _ _

end CompilerLemmas

section ClaimTheorems

/-- Claim C2 (code bug): for the boolean witness inputs `x1 = 0, x2 = 1`
the single generic row emitted by the `and` gadget violates its own gate
relation: with the emitted coefficients `q_l = 1, q_r = 1, q_o = -2,
q_m = 0, q_c = 0` and the row values `(l, r, o) = (0, 1, 0)` the
relation value is `1`, not `0`. -/
theorem c2_and_constraint_violated :
    singleGenericEval
      ((Cs.and systemOps (System.mk 0 ([] : List (GateSpec (ZMod 5))))
        ⟨0, none⟩ ⟨1, none⟩).2.gates.getD 0 defaultSpec).coeffs
      (((Cs.and witnessOps (WitnessGenerator.mk ([] : List (List (ZMod 5))))
        ⟨0, some 0⟩ ⟨0, some 1⟩).2.rows.getD 0 []).getD 0 0)
      (((Cs.and witnessOps (WitnessGenerator.mk ([] : List (List (ZMod 5))))
        ⟨0, some 0⟩ ⟨0, some 1⟩).2.rows.getD 0 []).getD 1 0)
      (((Cs.and witnessOps (WitnessGenerator.mk ([] : List (List (ZMod 5))))
        ⟨0, some 0⟩ ⟨0, some 1⟩).2.rows.getD 0 []).getD 2 0) = 1 ∧
    (1 : ZMod 5) ≠ 0 := by
  decide

/-- Claim C4 (code bug): `assert_pack` never calls `gate`; on the witness
backend it returns the builder state completely unchanged (when the length
precondition holds), emitting zero rows instead of `len/16` rows. -/
theorem c4_assert_pack_emits_nothing {F : Type} [Field F] [DecidableEq F]
    (w : WitnessGenerator F) (zero x : Var F) (bits_lsb : List (Var F)) :
    Cs.assert_pack witnessOps w zero x bits_lsb =
      if bits_lsb.length % 16 = 0 then some w else none := by
  unfold Cs.assert_pack
  by_cases h : bits_lsb.length % 16 = 0
  · simp only [if_pos h]
    congr 1
    exact foldl_packRowStep_wit_st _ _ _ _
  · simp only [if_neg h]

/-- Claim C5 (code bug): the third generic row emitted by `equals_old`
(the `diff = x1 - x2` row) carries the literal 3-element coefficient
vector `[1, -1, 1]` instead of a `GENERIC_ROW_COEFFS = 10` element
vector. -/
theorem c5_equals_old_short_coeffs :
    ((Cs.equals_old systemOps (System.mk 0 ([] : List (GateSpec (ZMod 5))))
        ⟨100, none⟩ ⟨101, none⟩).2.gates.getD 2 defaultSpec).typ =
      GateType.Generic ∧
    ((Cs.equals_old systemOps (System.mk 0 ([] : List (GateSpec (ZMod 5))))
        ⟨100, none⟩ ⟨101, none⟩).2.gates.getD 2 defaultSpec).coeffs.length = 3 ∧
    GENERIC_ROW_COEFFS = 10 := by
  decide

/-- Claim C6 (confirmed): on the circuit backend `var` returns the current
`next_variable` as index with no value, bumps the counter by one, leaves
the gates alone and is independent of the thunk (which is never invoked);
on the witness backend `var` returns index 0 and the value produced by
invoking the thunk, leaving the state unchanged. -/
theorem c6_var_backend_semantics {F : Type} [Field F] [DecidableEq F]
    (s : System F) (g g' : Unit → F) (w : WitnessGenerator F)
    (h : Unit → F) :
    ((systemOps.var s g).1.index = s.next_variable ∧
      (systemOps.var s g).1.value = none ∧
      (systemOps.var s g).2.next_variable = s.next_variable + 1 ∧
      (systemOps.var s g).2.gates = s.gates ∧
      systemOps.var s g = systemOps.var s g') ∧
    ((witnessOps.var w h).1.index = 0 ∧
      (witnessOps.var w h).1.value = some (h ()) ∧
      (witnessOps.var w h).2 = w) :=
  ⟨⟨rfl, rfl, rfl, rfl, rfl⟩, rfl, rfl, rfl⟩

/-- Claim C7 counterexample: two `Var`s with equal index but different
values do not compare equal under the derived equality (which the claim
asserts compares by index only). -/
theorem c7_index_eq_counterexample :
    varEqRust (⟨0, some (1 : ZMod 5)⟩ : Var (ZMod 5)) ⟨0, some 2⟩ = false ∧
    (⟨0, some (1 : ZMod 5)⟩ : Var (ZMod 5)).index =
      (⟨0, some (2 : ZMod 5)⟩ : Var (ZMod 5)).index := by
  decide

/-- Claim C7 (corrected): the derived equality on `Var` is structural;
it holds iff both the `index` and the `value` fields agree. -/
theorem c7_structural_eq {F : Type} [Field F] [DecidableEq F]
    (v w : Var F) :
    varEqRust v w = true ↔ v.index = w.index ∧ v.value = w.value := by
  simp [varEqRust]

/-- Claim C3 counterexample: a single call to `equals` on the witness
backend grows `curr_gate_count` by 5, not by the claimed 3 (the internal
`sub` and `constant(1)` calls also emit a generic row each). -/
theorem c3_equals_three_rows_counterexample :
    (Cs.equals witnessOps (WitnessGenerator.mk ([] : List (List (ZMod 5))))
      ⟨0, some 1⟩ ⟨0, some 2⟩).2.rows.length = 5 ∧ (5 : Nat) ≠ 3 := by
  decide

/-- Claim C3 (corrected): `equals(x1, x2)` on the witness backend returns
a variable valued 1 when the inputs agree and 0 otherwise, and one call
increases `curr_gate_count` by exactly 5: the three equality-constraint
rows plus one row each from the internal `sub` and `constant(1)`. -/
theorem c3_equals_value_and_five_rows {F : Type} [Field F] [DecidableEq F]
    (w : WitnessGenerator F) (x1 x2 : Var F) (a b : F)
    (h1 : x1.value = some a) (h2 : x2.value = some b) :
    (Cs.equals witnessOps w x1 x2).1.value =
      some (if a = b then (1 : F) else 0) ∧
    (Cs.equals witnessOps w x1 x2).2.rows.length = w.rows.length + 5 := by
  constructor
  · simp [Cs.equals, Cs.sub, witnessOps, WitnessGenerator.varOp, Var.val,
      h1, h2]
  · simp [Cs.equals, Cs.sub, Cs.constant, rowInit, range_columns, witnessOps,
      WitnessGenerator.varOp, WitnessGenerator.gateOp, Var.val]

/-- Witness for C3 at `x1 = 1, x2 = 2` over `ZMod 5`. -/
theorem c3_equals_value_and_five_rows_witness :
    (Cs.equals witnessOps (WitnessGenerator.mk ([] : List (List (ZMod 5))))
      ⟨0, some 1⟩ ⟨0, some 2⟩).1.value =
      some (if (1 : ZMod 5) = 2 then (1 : ZMod 5) else 0) ∧
    (Cs.equals witnessOps (WitnessGenerator.mk ([] : List (List (ZMod 5))))
      ⟨0, some 1⟩ ⟨0, some 2⟩).2.rows.length =
      (WitnessGenerator.mk ([] : List (List (ZMod 5)))).rows.length + 5 :=
  c3_equals_value_and_five_rows _ _ _ 1 2 rfl rfl

/-- Claim C9 (confirmed): in witness mode, `sub(add(a, b), b)` returns a
variable whose value is `a`. -/
theorem c9_sub_add_roundtrip {F : Type} [Field F] [DecidableEq F]
    (w : WitnessGenerator F) (x y : Var F) (a b : F)
    (hx : x.value = some a) (hy : y.value = some b) :
    (Cs.sub witnessOps (Cs.add witnessOps w x y).2
      (Cs.add witnessOps w x y).1 y).1.value = some a := by
  simp [Cs.add, Cs.sub, witnessOps, WitnessGenerator.varOp, Var.val, hx, hy]

/-- Witness for C9 at `a = 2, b = 3` over `ZMod 5`. -/
theorem c9_sub_add_roundtrip_witness :
    (Cs.sub witnessOps
      (Cs.add witnessOps (WitnessGenerator.mk ([] : List (List (ZMod 5))))
        ⟨0, some 2⟩ ⟨0, some 3⟩).2
      (Cs.add witnessOps (WitnessGenerator.mk ([] : List (List (ZMod 5))))
        ⟨0, some 2⟩ ⟨0, some 3⟩).1
      ⟨0, some 3⟩).1.value = some 2 :=
  c9_sub_add_roundtrip _ _ _ 2 3 rfl rfl

/-- Claim C8 (confirmed): the three gadget shape checks fail fast exactly
when the stated divisibility precondition is violated: `scalar` on
`length % 5`, `endo` on `length_in_bits % 4`, `assert_pack` on
`bits_lsb.len() % 16`. -/
theorem c8_shape_preconditions {F Fr σ : Type} [Field F] [DecidableEq F]
    [Field Fr] (ops : CsOps σ F) (reprF : Fr → F) (bitsLE : F → List Bool)
    (s : σ) (len lenB : Nat) (g : Unit → Fr) (zero x scalar : Var F)
    (constants : Constants F) (p : Var F × Var F) (bits : List (Var F)) :
    ((Cs.scalar ops reprF s len g).isSome ↔ len % 5 = 0) ∧
    ((Cs.endo ops bitsLE s zero constants p scalar lenB).isSome ↔
      lenB % 4 = 0) ∧
    ((Cs.assert_pack ops s zero x bits).isSome ↔ bits.length % 16 = 0) := by
  refine ⟨?_, ?_, ?_⟩
  · by_cases h : len % 5 = 0 <;> simp [Cs.scalar, h]
  · by_cases h : lenB % 4 = 0 <;> simp [Cs.endo, h]
  · by_cases h : bits.length % 16 = 0 <;> simp [Cs.assert_pack, h]

/-- Claim C10 (confirmed): the compiler `System::gates` returns exactly
one `CircuitGate` per `GateSpec`, in order, and copies each spec's type
and coefficient vector unchanged; only the wires are computed. -/
theorem c10_compile_preserves_typ_coeffs {F : Type} [Field F]
    [DecidableEq F] (s : System F) (j : Nat) :
    (System.compileGates s).length = s.gates.length ∧
    ((System.compileGates s)[j]?).map CircuitGate.typ =
      (s.gates[j]?).map GateSpec.typ ∧
    ((System.compileGates s)[j]?).map CircuitGate.coeffs =
      (s.gates[j]?).map GateSpec.coeffs := by
  have hc : System.compileGates s =
      ((wirePassGo ⟨[], []⟩ 0 s.gates).2.firstCell.foldl
        (finishStep (wirePassGo ⟨[], []⟩ 0 s.gates).2.mostRecent)
        (wirePassGo ⟨[], []⟩ 0 s.gates).1) := rfl
  rw [hc]
  exact ⟨by rw [finish_fold_length, wirePassGo_length],
    by rw [finish_fold_typ, wirePassGo_typ],
    by rw [finish_fold_coeffs, wirePassGo_coeffs]⟩

/-- Claim C1 counterexample: in the circuit `exC1`, variable 7 appears at
the (wired) cells `(0,0), (0,1), (0,2)`, yet the wire stored at the first
cell `(0,0)` names `(0,2)` -- the last cell -- not the next cell `(0,1)`
that the claimed forward cycle `c1 -> c2 -> ... -> cn -> c1` requires. -/
theorem c1_forward_cycle_counterexample :
    occs 7 exC1.gates = [⟨0, 0⟩, ⟨0, 1⟩, ⟨0, 2⟩] ∧
    wireAt (System.compileGates exC1) ⟨0, 0⟩ = some ⟨0, 2⟩ ∧
    wireAt (System.compileGates exC1) ⟨0, 0⟩ ≠ some ⟨0, 1⟩ := by
  decide

/-- Claim C1 (corrected): for every variable `v` with cells
`c1, ..., cn` within the first `PERMUTS = 7` columns (the only cells the
`[Wire; PERMUTS]` wires arrays cover), in row-major emission order, the
compiled wires link those cells into the reverse cycle: the wire at each
`c(i)` names `c(i-1)`, and the wire at `c1` names `cn` (a self-loop for a
single cell).  Stated uniformly: the wire at the `i`-th occurrence names
occurrence `(i + n - 1) % n`.  Cells in columns `7..14` carry no wire. -/
theorem c1_wires_reverse_cycle {F : Type} [Field F] [DecidableEq F]
    (s : System F) (v i : Nat) (hi : i < (occs v s.gates).length) :
    wireAt (System.compileGates s) ((occs v s.gates).get ⟨i, hi⟩) =
      some ((occs v s.gates).get
        ⟨(i + (occs v s.gates).length - 1) % (occs v s.gates).length,
          Nat.mod_lt _ (Nat.lt_of_le_of_lt (Nat.zero_le i) hi)⟩) := by
  have hnpos : 0 < (occs v s.gates).length :=
    Nat.lt_of_le_of_lt (Nat.zero_le i) hi
  obtain ⟨m1, m2, m3, m4, m5⟩ :=
    assignCells_spec (cellsGo 0 s.gates) [] ⟨[], []⟩
      (fun _ => rfl) (fun _ => rfl) (by simp)
  simp only [List.nil_append] at m1 m2 m5
  have hio : (occs v s.gates)[i]? = some ((occs v s.gates).get ⟨i, hi⟩) :=
    get?_of_get _ i hi
  obtain ⟨k, hk, hkc, hkt⟩ := occsIn_index v (cellsGo 0 s.gates) i _ hio
  have hw := m5 k ((occs v s.gates).get ⟨i, hi⟩, v) hkc
  rw [hkt] at hw
  have hmain : wireAt (wirePassGo ⟨[], []⟩ 0 s.gates).1
      ((occs v s.gates).get ⟨i, hi⟩) =
      some ((((occs v s.gates).take i).getLast?).getD
        ((occs v s.gates).get ⟨i, hi⟩)) := by
    have h0 := wirePassGo_wireAt s.gates ⟨[], []⟩ 0 k
      ((occs v s.gates).get ⟨i, hi⟩, v) _ hkc hw
    rw [Nat.sub_zero] at h0
    exact h0
  have hstate := wirePassGo_state s.gates ⟨[], []⟩ 0
  have hmemv : ((occs v s.gates).get ⟨i, hi⟩, v) ∈ cellsGo 0 s.gates :=
    List.getElem?_mem hkc
  have hnodup_pos : ((cellsGo 0 s.gates).map Prod.fst).Nodup :=
    cellsGo_fst_nodup s.gates 0
  have hnodup_o : (occs v s.gates).Nodup :=
    hnodup_pos.sublist (occsIn_sublist v (cellsGo 0 s.gates))
  have hcomp : System.compileGates s =
      ((wirePassGo ⟨[], []⟩ 0 s.gates).2.firstCell.foldl
        (finishStep (wirePassGo ⟨[], []⟩ 0 s.gates).2.mostRecent)
        (wirePassGo ⟨[], []⟩ 0 s.gates).1) := rfl
  have hMR : ∀ u,
      mapLookup (wirePassGo ⟨[], []⟩ 0 s.gates).2.mostRecent u =
        (occsIn u (cellsGo 0 s.gates)).getLast? := by
    intro u; rw [hstate]; exact m1 u
  have hFC : ∀ u,
      mapLookup (wirePassGo ⟨[], []⟩ 0 s.gates).2.firstCell u =
        (occsIn u (cellsGo 0 s.gates)).head? := by
    intro u; rw [hstate]; exact m2 u
  have hFCnd :
      ((wirePassGo ⟨[], []⟩ 0 s.gates).2.firstCell.map Prod.fst).Nodup := by
    rw [hstate]; exact m3
  have hentry : ∀ p ∈ (wirePassGo ⟨[], []⟩ 0 s.gates).2.firstCell,
      (occsIn p.1 (cellsGo 0 s.gates)).head? = some p.2 := by
    intro p hp
    have hl := mem_mapLookup _ p.1 p.2 hp hFCnd
    rw [hFC p.1] at hl
    exact hl
  have hwrite : ∀ p ∈ (wirePassGo ⟨[], []⟩ 0 s.gates).2.firstCell,
      p.2 = (occs v s.gates).get ⟨i, hi⟩ →
      p.1 = v ∧ (occsIn v (cellsGo 0 s.gates)).head? = some p.2 := by
    intro p hp he
    have hh := hentry p hp
    have hfwmem : (p.2, p.1) ∈ cellsGo 0 s.gates :=
      occsIn_mem _ _ _ (List.mem_of_mem_head? hh)
    have hu : p.1 = v := by
      rw [he] at hfwmem
      exact cellsGo_functional s.gates 0 _ _ _ hfwmem
        (occsIn_mem v _ _ (List.get_mem _ i hi))
    exact ⟨hu, hu ▸ hh⟩
  by_cases hz : i = 0
  · subst hz
    have hidx : (0 + (occs v s.gates).length - 1) %
        (occs v s.gates).length = (occs v s.gates).length - 1 := by
      rw [Nat.zero_add, Nat.mod_eq_of_lt (by omega)]
    have hhead : (occsIn v (cellsGo 0 s.gates)).head? =
        some ((occs v s.gates).get ⟨0, hi⟩) := by
      rw [List.head?_eq_getElem?]
      exact get?_of_get _ 0 hnpos
    have hmem1 : (v, (occs v s.gates).get ⟨0, hi⟩) ∈
        (wirePassGo ⟨[], []⟩ 0 s.gates).2.firstCell := by
      apply mapLookup_mem
      rw [hFC v, hhead]
    have hlast : mapLookup (wirePassGo ⟨[], []⟩ 0 s.gates).2.mostRecent v =
        some ((occs v s.gates).get
          ⟨(occs v s.gates).length - 1, by omega⟩) := by
      rw [hMR v]
      show (occs v s.gates).getLast? = _
      rw [List.getLast?_eq_getElem?]
      exact get?_of_get _ _ (by omega)
    have honce : ∀ p ∈ (wirePassGo ⟨[], []⟩ 0 s.gates).2.firstCell,
        p.2 = (occs v s.gates).get ⟨0, hi⟩ →
        p = (v, (occs v s.gates).get ⟨0, hi⟩) := by
      intro p hp he
      obtain ⟨hu, _⟩ := hwrite p hp he
      exact Prod.ext hu he
    have hbound : ∃ g,
        ((wirePassGo ⟨[], []⟩ 0 s.gates).1[((occs v s.gates).get
          ⟨0, hi⟩).row]?) = some g ∧
        ((occs v s.gates).get ⟨0, hi⟩).col < g.wires.length := by
      obtain ⟨_, g, hg, hv⟩ := cellsGo_mem s.gates 0 _ hmemv
      rw [Nat.sub_zero] at hg
      have hcol : ((occs v s.gates).get ⟨0, hi⟩).col <
          ((g.row.map Var.index).take PERMUTS).length :=
        (List.getElem?_eq_some.mp hv).1
      have hwl := wirePassGo_wires_length s.gates ⟨[], []⟩ 0
        (((occs v s.gates).get ⟨0, hi⟩).row)
      rw [hg] at hwl
      cases hF : (wirePassGo ⟨[], []⟩ 0
          s.gates).1[((occs v s.gates).get ⟨0, hi⟩).row]? with
      | none => rw [hF] at hwl; simp at hwl
      | some gout =>
        rw [hF] at hwl
        simp only [Option.map_some'] at hwl
        rw [Option.some.injEq] at hwl
        refine ⟨gout, rfl, ?_⟩
        omega
    have hfin := finish_fold_written
      (wirePassGo ⟨[], []⟩ 0 s.gates).2.mostRecent
      (wirePassGo ⟨[], []⟩ 0 s.gates).2.firstCell
      (wirePassGo ⟨[], []⟩ 0 s.gates).1 v
      ((occs v s.gates).get ⟨0, hi⟩)
      ((occs v s.gates).get ⟨(occs v s.gates).length - 1, by omega⟩)
      hmem1 hlast honce hFCnd hbound
    rw [hcomp, hfin]
    exact congrArg some (congrArg _ (Fin.ext hidx.symm))
  · have hpos : 0 < i := Nat.pos_of_ne_zero hz
    have hidx : (i + (occs v s.gates).length - 1) %
        (occs v s.gates).length = i - 1 := by
      have e : i + (occs v s.gates).length - 1 =
          (i - 1) + (occs v s.gates).length := by omega
      rw [e, Nat.add_mod_right, Nat.mod_eq_of_lt (by omega)]
    have huntouched : ∀ p ∈ (wirePassGo ⟨[], []⟩ 0 s.gates).2.firstCell,
        p.2 ≠ (occs v s.gates).get ⟨i, hi⟩ := by
      intro p hp he
      obtain ⟨_, hh⟩ := hwrite p hp he
      rw [List.head?_eq_getElem?] at hh
      have hh' : (occs v s.gates)[0]? = some p.2 := hh
      rw [get?_of_get _ 0 hnpos, Option.some.injEq] at hh'
      rw [he] at hh'
      have hfin0 := (List.Nodup.get_inj_iff hnodup_o).mp hh'
      have hval : (0 : Nat) = i := congrArg Fin.val hfin0
      omega
    have hfinal := finish_fold_untouched
      (wirePassGo ⟨[], []⟩ 0 s.gates).2.mostRecent
      (wirePassGo ⟨[], []⟩ 0 s.gates).2.firstCell
      (wirePassGo ⟨[], []⟩ 0 s.gates).1
      ((occs v s.gates).get ⟨i, hi⟩) huntouched
    rw [hcomp, hfinal, hmain]
    have htake : ((occs v s.gates).take i).getLast? =
        some ((occs v s.gates).get ⟨i - 1, by omega⟩) := by
      rw [List.getLast?_eq_getElem?,
        List.length_take_of_le (Nat.le_of_lt hi), List.getElem?_take,
        if_pos (by omega)]
      exact get?_of_get _ _ (by omega)
    rw [htake]
    simp only [Option.getD_some]
    exact congrArg some (congrArg _ (Fin.ext hidx.symm))

/-- Witness for C1 at the circuit `exC1`, variable 7, occurrence `i = 1`:
its wire names occurrence `(1 + 3 - 1) % 3 = 0`. -/
theorem c1_wires_reverse_cycle_witness :
    wireAt (System.compileGates exC1)
      ((occs 7 exC1.gates).get ⟨1, by decide⟩) =
      some ((occs 7 exC1.gates).get
        ⟨(1 + (occs 7 exC1.gates).length - 1) % (occs 7 exC1.gates).length,
          Nat.mod_lt _ (Nat.lt_of_le_of_lt (Nat.zero_le 1) (by decide))⟩) :=
  c1_wires_reverse_cycle exC1 7 1 (by decide)

end ClaimTheorems

end Kimchi
